import Mathlib

/-!
Verification development for the Memonto repository (Go): a shallow embedding
of its command-canonicalization / card-generation pipeline and Leitner-box
review scheduler, with theorems settling the frozen claims about it.

Modelling conventions:
* Go strings are Lean `String`s processed as `List Char`; all inputs of
  interest are ASCII, and `strings.ToLower` / `strings.TrimSpace` /
  `unicode.IsSpace` are modelled on their ASCII behaviour.
* Go `time.Time` and `time.Duration` are both modelled as `Int` nanoseconds
  (`time.Hour = 3.6e12 ns`); `now.Add(d)` is `now + d`, `now.Before(t)` is
  `now < t`.
* Go `int` is modelled as `Int`; the claims under study do not concern
  64-bit wraparound.
* Go `regexp.ReplaceAllString` scans the original string left to right for
  successive non-overlapping leftmost matches (replacements are not
  re-scanned); each of the repository's fixed regexes is embedded as a
  hand-written matcher with RE2's greedy/backtracking behaviour, and a
  generic fuelled driver performs the replacement walk.  `\b` assertions
  are evaluated against the characters of the original string, so the
  driver threads the previous original character through the walk.
* A Go panic (the `rest[0:1]` slice in `stableFlagOrder` on an empty
  `rest`) is modelled as `Option.none`.
-/

namespace Memonto

/-- Whitespace as used by `unicode.IsSpace` restricted to ASCII
(`strings.Fields`, `strings.TrimSpace`). -/
def isSpaceGo (c : Char) : Bool :=
  c = ' ' || c = '\t' || c = '\n' || c = '\x0b' || c = '\x0c' || c = '\r'

/-- Whitespace class `\s` of RE2: `[\t\n\f\r ]`. -/
def isWsRe (c : Char) : Bool :=
  c = '\t' || c = '\n' || c = '\x0c' || c = '\r' || c = ' '

/-- Word character class `\w` of RE2: `[0-9A-Za-z_]`. -/
def isWordChar (c : Char) : Bool := c.isAlpha || c.isDigit || c = '_'

/-- Lower-case hex digit, as in the `shaRe` pattern `[0-9a-f]`. -/
def isHexLower (c : Char) : Bool := c.isDigit || ('a' ≤ c && c ≤ 'f')

/-- Hex digit of either case, as in the `uuidRe` pattern `[0-9a-fA-F]`. -/
def isHexAny (c : Char) : Bool := isHexLower c || ('A' ≤ c && c ≤ 'F')

/-- Word-character test on the optional character to the left of a match,
for `\b` evaluation (start of string counts as a non-word position). -/
def optWord : Option Char → Bool
  | none => false
  | some c => isWordChar c

/-- Word-character test on the first character of the remaining input,
for `\b` evaluation (end of string counts as a non-word position). -/
def headWord : List Char → Bool
  | [] => false
  | c :: _ => isWordChar c

/-- Length of the maximal prefix run of characters satisfying `p`
(the greedy match of a character class under `+`/`*`). -/
def runLen (p : Char → Bool) : List Char → Nat
  | [] => 0
  | c :: t => if p c then runLen p t + 1 else 0

/-- `strings.HasPrefix` (and the prefix tests `strings.HasPrefix(t, "-")`
etc. in the source). -/
def strStartsWith (s pre : String) : Bool := pre.data.isPrefixOf s.data

/-- Substring occurrence on character lists: some suffix of `s` has `sub`
as a prefix. -/
def listHasSub : List Char → List Char → Bool
  | [], sub => sub.isEmpty
  | c :: t, sub => sub.isPrefixOf (c :: t) || listHasSub t sub

/-- `strings.Contains`. -/
def strContainsStr (s sub : String) : Bool := listHasSub s.data sub.data

/-- Fuelled helper for `strings.Count`: counts non-overlapping occurrences
left to right, skipping past each match.  Fuel `s.length` suffices because
every step consumes at least one character (`sub` is nonempty at every call
site, as in the source: `" -"` and `" --"`). -/
def countAux (sub : List Char) : Nat → List Char → Nat
  | 0, _ => 0
  | _ + 1, [] => 0
  | fuel + 1, c :: t =>
    if sub.isPrefixOf (c :: t) then 1 + countAux sub fuel (t.drop (sub.length - 1))
    else countAux sub fuel t

/-- `strings.Count` for a nonempty separator. -/
def strCount (s sub : String) : Nat := countAux sub.data s.data.length s.data

/-- `strings.ToLower` restricted to ASCII. -/
def toLowerStr (s : String) : String := String.mk (s.data.map Char.toLower)

/-- `strings.TrimSpace` restricted to ASCII whitespace. -/
def trimSpace (s : String) : String :=
  String.mk (((s.data.dropWhile isSpaceGo).reverse.dropWhile isSpaceGo).reverse)

/-- Accumulator-style splitter behind `fields`. -/
def fieldsAux : List Char → List Char → List String
  | acc, [] => if acc.isEmpty then [] else [String.mk acc.reverse]
  | acc, c :: t =>
    if isSpaceGo c then
      if acc.isEmpty then fieldsAux [] t else String.mk acc.reverse :: fieldsAux [] t
    else fieldsAux (c :: acc) t

/-- `strings.Fields`: whitespace-separated tokens, no empties. -/
def fields (s : String) : List String := fieldsAux [] s.data

/-- `strings.Join(toks, " ")`. -/
def joinSpace : List String → String
  | [] => ""
  | [t] => t
  | t :: u :: rest => t ++ " " ++ joinSpace (u :: rest)

/-- In-place update of one list position, as Go's `toks[i+1] = ph` or
`existing[i] = ...`; out-of-range indices leave the list unchanged. -/
def modifyIdx (f : α → α) : Nat → List α → List α
  | _, [] => []
  | 0, a :: t => f a :: t
  | j + 1, a :: t => a :: modifyIdx f j t

/-! ### Hand-embedded RE2 matchers

Each matcher takes the character preceding the current position (for `\b`)
and the remaining input, and returns the length of the leftmost-first match
starting exactly here, if any. -/

/-- `quoteBlob = '[^']+'|"[^"]+"`. -/
def quoteMatch (_ : Option Char) (s : List Char) : Option Nat :=
  match s with
  | '\'' :: rest =>
    let r := runLen (fun c => !(c = '\'')) rest
    (match rest.drop r with
     | '\'' :: _ => if 1 ≤ r then some (r + 2) else none
     | _ => none)
  | '"' :: rest =>
    let r := runLen (fun c => !(c = '"')) rest
    (match rest.drop r with
     | '"' :: _ => if 1 ≤ r then some (r + 2) else none
     | _ => none)
  | _ => none

/-- `urlRe = https?://\S+`. -/
def urlMatch (_ : Option Char) (s : List Char) : Option Nat :=
  if "https://".data.isPrefixOf s then
    let r := runLen (fun c => !isWsRe c) (s.drop 8)
    if 1 ≤ r then some (8 + r) else none
  else if "http://".data.isPrefixOf s then
    let r := runLen (fun c => !isWsRe c) (s.drop 7)
    if 1 ≤ r then some (7 + r) else none
  else none

/-- Character class `[\w._%+-]` of the email local part. -/
def isLocalChar (c : Char) : Bool :=
  isWordChar c || c = '.' || c = '_' || c = '%' || c = '+' || c = '-'

/-- Character class `[\w.-]` of the email domain part. -/
def isDomChar (c : Char) : Bool := isWordChar c || c = '.' || c = '-'

/-- Backtracking search for the domain tail `[\w.-]+\.[A-Za-z]{2,}\b` of
`emailRe`: the greedy `[\w.-]+` takes `j` characters, preferring larger `j`
(the descent below), then requires a literal dot, at least two letters, and
a trailing word boundary; only the maximal letter run can satisfy the
boundary, since any shorter run is followed by a letter. -/
def emailTryJ (t : List Char) : Nat → Option Nat
  | 0 => none
  | j + 1 =>
    match t.drop (j + 1) with
    | '.' :: rest2 =>
      let k := runLen Char.isAlpha rest2
      if 2 ≤ k && !headWord (rest2.drop k) then some ((j + 1) + 1 + k)
      else emailTryJ t j
    | _ => emailTryJ t j

/-- `emailRe = \b[\w._%+-]+@[\w.-]+\.[A-Za-z]{2,}\b`.  The greedy local part
must end exactly at an `@` (its class excludes `@`, so no backtracking). -/
def emailMatch (prev : Option Char) (s : List Char) : Option Nat :=
  let l := runLen isLocalChar s
  if l = 0 then none
  else if optWord prev = headWord s then none
  else
    match s.drop l with
    | '@' :: t =>
      (match emailTryJ t (runLen isDomChar t) with
       | some dlen => some (l + 1 + dlen)
       | none => none)
    | _ => none

/-- Exactly `n` hex digits, returning the rest of the input. -/
def takeHex : Nat → List Char → Option (List Char)
  | 0, s => some s
  | _ + 1, [] => none
  | n + 1, c :: t => if isHexAny c then takeHex n t else none

/-- A literal dash, returning the rest of the input. -/
def expectDash : List Char → Option (List Char)
  | '-' :: t => some t
  | _ => none

/-- `uuidRe = \b[0-9a-fA-F]{8}-[0-9a-fA-F]{4}-[0-9a-fA-F]{4}-[0-9a-fA-F]{4}-[0-9a-fA-F]{12}\b`
(fixed 36-character shape; the first matched character is a word character,
so the leading boundary requires a non-word predecessor). -/
def uuidMatch (prev : Option Char) (s : List Char) : Option Nat :=
  if optWord prev then none
  else
    match ((((((((takeHex 8 s).bind expectDash).bind (takeHex 4)).bind
        expectDash).bind (takeHex 4)).bind expectDash).bind (takeHex 4)).bind
        expectDash).bind (takeHex 12) with
    | some rest => if headWord rest then none else some 36
    | none => none

/-- `shaRe = \b[0-9a-f]{7,40}\b`: the maximal lower-hex run must have length
in `[7,40]` and end at a word boundary (a shorter cut is always followed by
a word character, and a run longer than 40 cannot end at a boundary). -/
def shaMatch (prev : Option Char) (s : List Char) : Option Nat :=
  if optWord prev then none
  else
    let r := runLen isHexLower s
    if 7 ≤ r && r ≤ 40 && !headWord (s.drop r) then some r else none

/-- One `\d{1,3}` group of `ipRe`; the digit run must itself have length
1–3, since a longer run leaves a digit after any 1–3 digit cut. -/
def ipGroup (s : List Char) : Option (Nat × List Char) :=
  let r := runLen Char.isDigit s
  if 1 ≤ r && r ≤ 3 then some (r, s.drop r) else none

/-- `ipRe = \b\d{1,3}(\.\d{1,3}){3}\b`. -/
def ipMatch (prev : Option Char) (s : List Char) : Option Nat :=
  if optWord prev then none
  else
    match ipGroup s with
    | none => none
    | some (r1, s1) =>
      match s1 with
      | '.' :: s1b =>
        (match ipGroup s1b with
         | none => none
         | some (r2, s2) =>
           match s2 with
           | '.' :: s2b =>
             (match ipGroup s2b with
              | none => none
              | some (r3, s3) =>
                match s3 with
                | '.' :: s3b =>
                  (match ipGroup s3b with
                   | none => none
                   | some (r4, s4) =>
                     if headWord s4 then none else some (r1 + r2 + r3 + r4 + 3))
                | _ => none)
           | _ => none)
      | _ => none

/-- `bigNumRe = \b\d{3,}\b`. -/
def bigNumMatch (prev : Option Char) (s : List Char) : Option Nat :=
  if optWord prev then none
  else
    let r := runLen Char.isDigit s
    if 3 ≤ r && !headWord (s.drop r) then some r else none

/-- `varAssign = \b[A-Za-z_][A-Za-z0-9_]*=([^ \t]+)`. -/
def varAssignMatch (prev : Option Char) (s : List Char) : Option Nat :=
  if optWord prev then none
  else
    match s with
    | [] => none
    | c :: _ =>
      if c.isAlpha || c = '_' then
        let n := runLen isWordChar s
        match s.drop n with
        | '=' :: rest =>
          let v := runLen (fun ch => !(ch = ' ') && !(ch = '\t')) rest
          if 1 ≤ v then some (n + 1 + v) else none
        | _ => none
      else none

/-- Character class `[\w@./\-+:%]` of `pathLike`. -/
def isPathChar (c : Char) : Bool :=
  isWordChar c || c = '@' || c = '.' || c = '/' || c = '-' || c = '+' || c = ':' || c = '%'

/-- `pathLike = (~|\.{1,2}|/)[\w@./\-+:%]+`.  In the two-dot case the greedy
`\.{1,2}` backtracks to one dot when nothing follows, letting the tail class
consume the second dot (so a bare `..` still matches, length 2). -/
def pathMatch (_ : Option Char) (s : List Char) : Option Nat :=
  match s with
  | '~' :: t =>
    let r := runLen isPathChar t
    if 1 ≤ r then some (1 + r) else none
  | '.' :: '.' :: t =>
    let r := runLen isPathChar t
    if 1 ≤ r then some (2 + r) else some 2
  | '.' :: t =>
    let r := runLen isPathChar t
    if 1 ≤ r then some (1 + r) else none
  | '/' :: t =>
    let r := runLen isPathChar t
    if 1 ≤ r then some (1 + r) else none
  | _ => none

/-- `wsCollapse = \s+`. -/
def wsMatch (_ : Option Char) (s : List Char) : Option Nat :=
  let r := runLen isWsRe s
  if 1 ≤ r then some r else none

/-- Fuelled replacement walk of `Regexp.ReplaceAllString`: at each position
try the matcher; on a match emit the replacement and resume after the match,
remembering the last original character for later `\b` checks.  Fuel
`s.length` suffices since every matcher of this file matches at least one
character. -/
def replAll (m : Option Char → List Char → Option Nat) (r : List Char) :
    Nat → Option Char → List Char → List Char
  | 0, _, s => s
  | _ + 1, _, [] => []
  | fuel + 1, prev, c :: t =>
    match m prev (c :: t) with
    | some n => r ++ replAll m r fuel ((c :: t).take n).getLast? ((c :: t).drop n)
    | none => c :: replAll m r fuel (some c) t

/-- `re.ReplaceAllString(s, repl)` for one of the embedded matchers. -/
def goRepl (m : Option Char → List Char → Option Nat) (r : String) (s : String) : String :=
  String.mk (replAll m r.data s.data.length none s.data)

/-- Unanchored search helper behind `MatchString`. -/
def reMatchAux (m : Option Char → List Char → Option Nat) :
    Option Char → List Char → Bool
  | prev, [] => (m prev []).isSome
  | prev, c :: t => (m prev (c :: t)).isSome || reMatchAux m (some c) t

/-- `re.MatchString(s)` for one of the embedded matchers. -/
def goMatch (m : Option Char → List Char → Option Nat) (s : String) : Bool :=
  reMatchAux m none s.data

/-! ### The data model -/

/-- The `Card` struct of `storage.go`. -/
structure Card where
  ID : String
  Prompt : String
  Answer : String
  Hint : String
  Command : String
  Tags : List String
  Box : Int
  NextDue : Int
  LastReviewed : Int
  Streak : Int
  TimesSeen : Int
  SeenCount : Int
deriving DecidableEq

instance : Inhabited Card :=
  ⟨{ ID := "", Prompt := "", Answer := "", Hint := "", Command := "", Tags := [],
     Box := 0, NextDue := 0, LastReviewed := 0, Streak := 0, TimesSeen := 0,
     SeenCount := 0 }⟩

/-- The `CommandEvent` struct of `ingest.go`. -/
structure CommandEvent where
  When : Int
  Command : String

/-- `time.Hour` in nanoseconds. -/
def nsHour : Int := 3600000000000

/-- `24 * time.Hour` in nanoseconds. -/
def nsDay : Int := 24 * nsHour

/-- The `boxIntervals` map; a missing key yields Go's zero `Duration`. -/
def boxIntervals (b : Int) : Int :=
  if b = 1 then 0
  else if b = 2 then nsDay
  else if b = 3 then 3 * nsDay
  else if b = 4 then 7 * nsDay
  else if b = 5 then 21 * nsDay
  else 0

/-- `Card.Touch` of `storage.go`. -/
def Card.Touch (c : Card) (now : Int) : Card :=
  { c with LastReviewed := now, TimesSeen := c.TimesSeen + 1 }

/-- `Grade` of the review scheduler. -/
def Grade (card : Card) (correct : Bool) (now : Int) : Card :=
  let c1 := card.Touch now
  let c2 :=
    if correct then
      { c1 with Box := if c1.Box < 5 then c1.Box + 1 else c1.Box,
                Streak := c1.Streak + 1 }
    else
      { c1 with Box := if 1 < c1.Box then c1.Box - 1 else c1.Box,
                Streak := if 0 < c1.Streak then 0 else c1.Streak }
  { c2 with NextDue := now + boxIntervals c2.Box }

/-- `Card.Due`: `!now.Before(c.NextDue)`. -/
def Card.Due (c : Card) (now : Int) : Bool := !(now < c.NextDue)

/-- Stable insertion of a later card into an accumulator sorted by
descending `SeenCount`: the new card goes after every card whose count is
at least its own. -/
def insertBySeen (c : Card) : List Card → List Card
  | [] => [c]
  | d :: ds =>
    if c.SeenCount ≤ d.SeenCount then d :: insertBySeen c ds else c :: d :: ds

/-- Model of `sort.SliceStable(out, func(i, j) { return out[i].SeenCount >
out[j].SeenCount })`: processing the original order left to right and
placing each card after all cards with a count at least its own is the
stable sort for this comparison, and stable sorts for a fixed comparison
are extensionally unique, so this equals the Go result. -/
def sortBySeenDesc (l : List Card) : List Card :=
  l.foldl (fun acc c => insertBySeen c acc) []

/-- `DueCards` of the review scheduler (`src/unnamed/part_000`). -/
def DueCards (cards : List Card) (now : Int) : List Card :=
  sortBySeenDesc (cards.filter (fun c => c.Due now))

/-- `checkAnswer` of `tui.go`. -/
def checkAnswer (c : Card) (ans : String) : Bool :=
  if ans = "" then false
  else
    let A := toLowerStr (trimSpace c.Answer)
    let B := toLowerStr (trimSpace ans)
    A == B || strContainsStr A B || strContainsStr B A

/-- Modelled from the spec's words (for comparison with `checkAnswer`): an
answer is correct iff, after trimming whitespace and lowercasing both
strings, the submitted answer equals the stored answer or either is a
substring of the other. -/
def specAnswerOK (c : Card) (ans : String) : Bool :=
  let a := toLowerStr (trimSpace c.Answer)
  let b := toLowerStr (trimSpace ans)
  a == b || strContainsStr a b || strContainsStr b a

/-! ### Canonicalizer -/

/-- The `valueFlags` table. -/
def valueFlags (t : String) : Option String :=
  if t = "-o" || t = "--output" || t = "-i" || t = "--input" then some "<PATH>"
  else if t = "-f" || t = "--file" then some "<FILE>"
  else if t = "--namespace" || t = "-n" then some "<NS>"
  else if t = "--context" then some "<CTX>"
  else if t = "-r" || t = "--repo" then some "<REPO>"
  else if t = "--kubeconfig" || t = "--config" then some "<PATH>"
  else none

/-- Fuelled helper for `valueFlagPass`; every step consumes exactly one
token, so fuel `l.length` suffices. -/
def valueFlagPassAux : Nat → List String → List String
  | 0, l => l
  | _ + 1, [] => []
  | _ + 1, [t] => [t]
  | fuel + 1, t :: u :: rest =>
    match valueFlags t with
    | some ph =>
      if strStartsWith u "-" then t :: valueFlagPassAux fuel (u :: rest)
      else t :: valueFlagPassAux fuel (ph :: rest)
    | none => t :: valueFlagPassAux fuel (u :: rest)

/-- The token-level pass of `normalizeCommand` replacing the value after a
known flag, exactly as the Go index loop (the replaced token is itself
inspected at the next iteration, where it is never a known flag). -/
def valueFlagPass (l : List String) : List String := valueFlagPassAux l.length l

/-- Fuelled helper for `splitFlags`; every step consumes at least one
token, so fuel `l.length` suffices (the fuel-exhausted case is
unreachable). -/
def splitFlagsAux : Nat → List String → List String × List String
  | 0, l => ([], l)
  | _ + 1, [] => ([], [])
  | fuel + 1, t :: rest =>
    if strStartsWith t "--" then
      match rest with
      | u :: rest2 =>
        if !strStartsWith u "-" && !((valueFlags t).getD "" = "") then
          let pr := splitFlagsAux fuel rest2
          (pr.1, t :: u :: pr.2)
        else
          let pr := splitFlagsAux fuel (u :: rest2)
          (t :: pr.1, pr.2)
      | [] => ([t], [])
    else
      let pr := splitFlagsAux fuel rest
      (pr.1, t :: pr.2)

/-- The classification loop of `stableFlagOrder`: standalone `--` flags go
to the first component, everything else (including recognized flag/value
pairs) keeps its order in the second. -/
def splitFlags (l : List String) : List String × List String :=
  splitFlagsAux l.length l

/-- Lexicographic order on character lists.  Go compares strings byte by
byte; on valid UTF-8 the byte order coincides with the codepoint order
modelled here. -/
def listLexLt : List Char → List Char → Bool
  | [], [] => false
  | [], _ :: _ => true
  | _ :: _, [] => false
  | a :: s, b :: t =>
    if a.toNat < b.toNat then true
    else if b.toNat < a.toNat then false
    else listLexLt s t

/-- Go's `<` on strings. -/
def strLt (a b : String) : Bool := listLexLt a.data b.data

/-- Ascending insertion into a sorted string list. -/
def insertStr (x : String) : List String → List String
  | [] => [x]
  | y :: t => if strLt x y then x :: y :: t else y :: insertStr x t

/-- `sort.Strings` (ascending lexicographic; equal strings are identical,
so any sorting algorithm yields the same list). -/
def sortStrings : List String → List String
  | [] => []
  | x :: t => insertStr x (sortStrings t)

/-- `stableFlagOrder`.  Go rebuilds the slice as
`rest[0:1] ++ flags ++ rest[1:]`; when `rest` is empty the slice expression
`rest[0:1]` panics with an out-of-range error, modelled as `none`. -/
def stableFlagOrder (toks : List String) : Option (List String) :=
  let pr := splitFlags toks
  match pr.2 with
  | [] => none
  | r0 :: rtail => some (r0 :: (sortStrings pr.1 ++ rtail))

/-- `normalizeCommand` of `ingest.go`: the fixed masking pipeline, the
flag-value pass, flag reordering, and whitespace normalization.  Note the
`varAssign` replacement: Go expands `${VAR}` in the template as a reference
to a capture group named `VAR`, which does not exist, so the actual
replacement text is `=<VAL>`. -/
def normalizeCommand (s : String) : Option String :=
  let s1 := goRepl quoteMatch "<STR>" s
  let s2 := goRepl urlMatch "<URL>" s1
  let s3 := goRepl emailMatch "***@***" s2
  let s4 := goRepl uuidMatch "<UUID>" s3
  let s5 := goRepl shaMatch "<SHA>" s4
  let s6 := goRepl ipMatch "<IP>" s5
  let s7 := goRepl bigNumMatch "<NUM>" s6
  let s8 := goRepl varAssignMatch "=<VAL>" s7
  let s9 := goRepl pathMatch "<PATH>" s8
  let toks := valueFlagPass (fields s9)
  match stableFlagOrder toks with
  | none => none
  | some toks2 => some (trimSpace (goRepl wsMatch " " (joinSpace toks2)))

/-! ### Trickiness, cloze, tags, card generation -/

/-- `isTricky` of `ingest.go` (`len` in Go counts bytes). -/
def isTricky (cmd : String) : Bool :=
  let flags := strCount cmd " -" + strCount cmd " --"
  decide (40 < cmd.utf8ByteSize) || strContainsStr cmd "|" || strContainsStr cmd "&&" ||
  decide (2 ≤ flags) || strContainsStr cmd "-rf" || strContainsStr cmd "--force"

/-- `isBadAnswerToken` of `ingest.go`. -/
def isBadAnswerToken (w : String) : Bool :=
  w == "" ||
  (strContainsStr w "<" && strContainsStr w ">") ||
  strContainsStr w "/" || strStartsWith w "~" || strStartsWith w "." ||
  goMatch urlMatch w || goMatch pathMatch w || goMatch shaMatch w ||
  goMatch uuidMatch w ||
  goMatch bigNumMatch w

/-- `preferSubcommands` as a membership predicate. -/
def preferSubcommands (cmdName : String) (w : String) : Bool :=
  if cmdName = "git" then
    ["rebase", "cherry-pick", "stash", "reset", "restore", "revert", "checkout",
     "commit", "fetch", "merge", "push", "pull"].contains w
  else if cmdName = "kubectl" then
    ["get", "describe", "apply", "delete", "logs", "exec", "rollout", "scale",
     "port-forward", "top"].contains w
  else false

/-- The candidate index list of `cloze`, steps 1–3: preferred sub-commands
(from index 1), then `--` flags (from index 0), then short flags (from
index 0), in the source's loop order. -/
def clozeCandidates (words : List String) : List Nat :=
  let good := preferSubcommands (words.getD 0 "")
  ((List.range words.length).filter (fun i => decide (1 ≤ i) && good (words.getD i ""))) ++
  ((List.range words.length).filter (fun i => strStartsWith (words.getD i "") "--")) ++
  ((List.range words.length).filter (fun i =>
      strStartsWith (words.getD i "") "-" && !strStartsWith (words.getD i "") "--"))

/-- The step-4 fallback of `cloze`: the first index `≥ 1` whose token is not
a bad answer token, used only when the candidate list is empty. -/
def clozeFallback (words : List String) : List Nat :=
  match (List.range words.length).find?
      (fun i => decide (1 ≤ i) && !isBadAnswerToken (words.getD i "")) with
  | some i => [i]
  | none => []

/-- The hidden index chosen by `cloze`: the first candidate that is not a
bad answer token (the step-4 fallback replacing an empty candidate list),
with the final fallback to index 0. -/
def clozeIdx (words : List String) : Nat :=
  match (if (clozeCandidates words).isEmpty then clozeFallback words
         else clozeCandidates words).find?
      (fun i => !isBadAnswerToken (words.getD i "")) with
  | some i => i
  | none => 0

/-- `cloze` of `ingest.go`, returning `(prompt, answer, hint)`. -/
def cloze (cmd : String) : String × String × String :=
  let words := fields cmd
  if words.isEmpty then ("", "", "")
  else
    let idx := clozeIdx words
    (joinSpace (modifyIdx (fun _ => "_____") idx words),
     words.getD idx "",
     "Type the missing flag/subcommand")

/-- `unique` of `ingest.go` (first-occurrence deduplication), with the seen
set as an accumulator list. -/
def uniqueAux (seen : List String) : List String → List String
  | [] => []
  | s :: t => if seen.contains s then uniqueAux seen t else s :: uniqueAux (seen ++ [s]) t

/-- `unique` of `ingest.go`. -/
def uniqueStrs (l : List String) : List String := uniqueAux [] l

/-- `deriveTags` of `ingest.go`. -/
def deriveTags (cmd : String) : List String :=
  match fields cmd with
  | [] => []
  | cmdName :: _ =>
    uniqueStrs (cmdName ::
      (["git", "kubectl", "ffmpeg", "docker", "grep", "awk", "sed"].filter
        (fun t => strStartsWith cmd (t ++ " "))))

/-- Last index of `id` in an id list; Go's `idx` map is built front to back
with later assignments overwriting earlier ones, so the last occurrence
wins. -/
def findLastIdx (ids : List String) (id : String) : Option Nat :=
  match ids with
  | [] => none
  | x :: t =>
    match findLastIdx t id with
    | some j => some (j + 1)
    | none => if x == id then some 0 else none

/-- State threaded through the `GenerateCards` loop: the (mutated) existing
cards, the new cards produced so far, and the `seenIDs` set. -/
structure GenState where
  ex : List Card
  out : List Card
  seen : List String

/-- One iteration of the `GenerateCards` loop.  `eids` is the id index
built once from the original `existing` before the loop; appended cards are
never added to it.  The hash function and the creation time are parameters
(Go uses SHA-1 and `time.Now()`); `none` models the panic that
`normalizeCommand` can raise. -/
def genStep (hash : String → String) (nowT : Int) (eids : List String)
    (st : GenState) (ev : CommandEvent) : Option GenState :=
  if !isTricky ev.Command then some st
  else
    match normalizeCommand ev.Command with
    | none => none
    | some canon =>
      if st.seen.contains (hash canon) then some st
      else
        match findLastIdx eids (hash canon) with
        | some j =>
          some { st with ex := modifyIdx (fun c => { c with SeenCount := c.SeenCount + 1 }) j st.ex }
        | none =>
          some { st with
                 out := st.out ++ [{ ID := hash canon, Prompt := (cloze canon).1,
                                     Answer := (cloze canon).2.1,
                                     Hint := (cloze canon).2.2, Command := canon,
                                     Tags := deriveTags canon, Box := 1,
                                     NextDue := nowT, LastReviewed := 0, Streak := 0,
                                     TimesSeen := 0, SeenCount := 1 }],
                 seen := st.seen ++ [hash canon] }

/-- `GenerateCards` of `ingest.go`, returning the new cards and the
(possibly `SeenCount`-incremented) existing cards. -/
def GenerateCards (hash : String → String) (nowT : Int)
    (events : List CommandEvent) (existing : List Card) :
    Option (List Card × List Card) :=
  match events.foldlM (genStep hash nowT (existing.map Card.ID))
      { ex := existing, out := [], seen := [] } with
  | none => none
  | some st => some (st.out, st.ex)

/-! ### Merge -/

/-- `union` of `storage.go`.  Go collects the keys of a map, whose
iteration order is unspecified; the model fixes first-occurrence order.
Tag lists are only ever compared as sets. -/
def unionTags (a b : List String) : List String := uniqueStrs (a ++ b)

/-- The matched-card update of `UpsertCards`: union the tags, fill
`Prompt`/`Answer`/`Hint` only when blank. -/
def mergeInto (e c : Card) : Card :=
  { e with Tags := unionTags e.Tags c.Tags,
           Prompt := if e.Prompt = "" then c.Prompt else e.Prompt,
           Answer := if e.Answer = "" then c.Answer else e.Answer,
           Hint := if e.Hint = "" then c.Hint else e.Hint }

/-- One iteration of the `UpsertCards` loop; `eids` is the id index built
once from the original `existing`, so appended cards never match. -/
def upsertStep (eids : List String) (acc : List Card) (c : Card) : List Card :=
  match findLastIdx eids c.ID with
  | some j => modifyIdx (fun e => mergeInto e c) j acc
  | none => acc ++ [c]

/-- `UpsertCards` of `storage.go`. -/
def UpsertCards (existing incoming : List Card) : List Card :=
  incoming.foldl (upsertStep (existing.map Card.ID)) existing

/-- Order-insensitive equality of tag lists, as Booleans. -/
def tagsSetEqB (a b : List String) : Bool :=
  a.all (fun t => b.contains t) && b.all (fun t => a.contains t)

/-- Equality of cards by id and field content, with tags compared as an
order-insensitive set (the comparison used by the merge-idempotence
claim). -/
def cardEqB (a b : Card) : Bool :=
  a.ID == b.ID && a.Prompt == b.Prompt && a.Answer == b.Answer && a.Hint == b.Hint &&
  a.Command == b.Command && a.Box == b.Box && a.NextDue == b.NextDue &&
  a.LastReviewed == b.LastReviewed && a.Streak == b.Streak &&
  a.TimesSeen == b.TimesSeen && a.SeenCount == b.SeenCount && tagsSetEqB a.Tags b.Tags

/-- Pointwise `cardEqB` on card sequences of equal length. -/
def cardsEqB : List Card → List Card → Bool
  | [], [] => true
  | a :: as, b :: bs => cardEqB a b && cardsEqB as bs
  | _, _ => false

/-- Propositional counterpart of `cardEqB`: equality by id and field
content, with tags compared as sets. -/
def CardSetEq (a b : Card) : Prop :=
  a.ID = b.ID ∧ a.Prompt = b.Prompt ∧ a.Answer = b.Answer ∧ a.Hint = b.Hint ∧
  a.Command = b.Command ∧ a.Box = b.Box ∧ a.NextDue = b.NextDue ∧
  a.LastReviewed = b.LastReviewed ∧ a.Streak = b.Streak ∧ a.TimesSeen = b.TimesSeen ∧
  a.SeenCount = b.SeenCount ∧ ∀ t : String, t ∈ a.Tags ↔ t ∈ b.Tags

/-- A card `c` is absorbed in `e` when merging `c` into `e` can no longer
change `e` up to tag-set equality: `e` already carries all of `c`'s tags,
and a blank fillable field of `e` is blank in `c` too. -/
def Absorbed (c e : Card) : Prop :=
  (∀ t ∈ c.Tags, t ∈ e.Tags) ∧ (e.Prompt = "" → c.Prompt = "") ∧
  (e.Answer = "" → c.Answer = "") ∧ (e.Hint = "" → c.Hint = "")

/-! ### Concrete cards and events used in the closed instances -/

/-- A card with box 3 and a negative streak (representable, since `Streak`
is a Go `int`), exercising the incorrect-grade path of `Grade`. -/
def negStreakCard : Card := { (default : Card) with Box := 3, Streak := -1 }

/-- A card with box 2 and streak 0. -/
def box2Card : Card := { (default : Card) with Box := 2 }

/-- A card whose stored answer is `ls`. -/
def lsCard : Card := { (default : Card) with Answer := "ls" }

/-- A due card with seen count 5. -/
def seenCard5 : Card := { (default : Card) with ID := "s5", SeenCount := 5 }

/-- A due card with seen count 1. -/
def seenCard1 : Card := { (default : Card) with ID := "s1", SeenCount := 1 }

/-- A due card with seen count 3. -/
def seenCard3 : Card := { (default : Card) with ID := "s3", SeenCount := 3 }

/-- First of two incoming cards sharing an id but differing in content. -/
def dupIncA : Card := { (default : Card) with ID := "x", Prompt := "p" }

/-- Second of two incoming cards sharing an id but differing in content. -/
def dupIncB : Card := { (default : Card) with ID := "x", Prompt := "" }

/-- An existing card with non-blank prompt and review state. -/
def wExist : Card :=
  { (default : Card) with
    ID := "e1", Prompt := "keep", Box := 4, Streak := 2, Tags := ["old"] }

/-- An incoming card matching no existing id. -/
def wInc : Card := { (default : Card) with ID := "n1", Prompt := "np", Tags := ["new"] }

/-- An incoming card matching `wExist` by id. -/
def wIncMatch : Card :=
  { (default : Card) with ID := "e1", Prompt := "other", Tags := ["new"], Box := 1 }

/-- A command event whose command is tricky and canonicalizes without
panicking. -/
def wEvent : CommandEvent := { When := 0, Command := "git rebase -i x --force" }

/-- The card generated from `wEvent` (with the identity hash and creation
time 7). -/
def wGenCard : Card :=
  { ID := "git --force rebase -i <PATH>", Prompt := "git --force _____ -i <PATH>",
    Answer := "rebase", Hint := "Type the missing flag/subcommand",
    Command := "git --force rebase -i <PATH>", Tags := ["git"], Box := 1,
    NextDue := 7, LastReviewed := 0, Streak := 0, TimesSeen := 0, SeenCount := 1 }

end Memonto

namespace Memonto

/-! ## Theorems -/

/-- C1 (counterexample): at a card with box 3 and streak `-1`, an incorrect
grade leaves the streak at `-1`, whereas the claim states that an incorrect
grade sets the streak to 0 for every card with box in `{1,...,5}` (the
source only zeroes a positive streak). -/
theorem grade_negative_streak_kept :
    1 ≤ negStreakCard.Box ∧ negStreakCard.Box ≤ 5 ∧
    ¬ ((Grade negStreakCard false 0).Streak = 0) := by decide

/-- C1 (amended): for every card with box in `{1,...,5}` and nonnegative
streak, grading sets `lastReviewed` to `now`, increments `timesSeen`, moves
the box to `min(box+1,5)` and increments the streak on a correct answer,
moves the box to `max(box-1,1)` and zeroes the streak on an incorrect one,
and reschedules `nextDue = now + interval(box)` using the post-transition
box, with the interval table 1 ↦ 0, 2 ↦ 1 day, 3 ↦ 3 days, 4 ↦ 7 days,
5 ↦ 21 days. -/
theorem grade_spec (c : Card) (correct : Bool) (now : Int)
    (hb1 : 1 ≤ c.Box) (hb5 : c.Box ≤ 5) (hs : 0 ≤ c.Streak) :
    (Grade c correct now).LastReviewed = now ∧
    (Grade c correct now).TimesSeen = c.TimesSeen + 1 ∧
    (correct = true → (Grade c correct now).Box = min (c.Box + 1) 5 ∧
      (Grade c correct now).Streak = c.Streak + 1) ∧
    (correct = false → (Grade c correct now).Box = max (c.Box - 1) 1 ∧
      (Grade c correct now).Streak = 0) ∧
    (Grade c correct now).NextDue = now + boxIntervals (Grade c correct now).Box ∧
    boxIntervals 1 = 0 ∧ boxIntervals 2 = nsDay ∧ boxIntervals 3 = 3 * nsDay ∧
    boxIntervals 4 = 7 * nsDay ∧ boxIntervals 5 = 21 * nsDay := by
  cases correct <;>
    simp only [Grade, Card.Touch, ite_true, ite_false, Bool.true_eq_false,
      Bool.false_eq_true, false_implies, true_implies, true_and, and_true,
      if_true, if_false] <;>
    split_ifs <;>
    simp_all [boxIntervals, nsDay, nsHour] <;> omega

/-- C1 (witness): the amended grading theorem applied to a concrete card
with box 2 and streak 0, graded correct at time 5. -/
theorem grade_spec_witness :
    (Grade box2Card true 5).Box = min (box2Card.Box + 1) 5 ∧
    (Grade box2Card true 5).Streak = box2Card.Streak + 1 :=
  (grade_spec box2Card true 5 (by decide) (by decide) (by decide)).2.2.1 rfl

/-- C4 (counterexample): for a card whose stored answer is `ls`, the
spec's correctness condition holds for the submitted answer `""` (the
empty string is a substring of every string), yet `checkAnswer` returns
false: the source rejects an exactly-empty submission before any trimming
or substring test. -/
theorem check_answer_empty_diverges :
    specAnswerOK lsCard "" = true ∧ checkAnswer lsCard "" = false := by decide

/-- C4 (amended): the answer check returns true iff the raw submitted
string is non-empty and, after trimming whitespace and lowercasing both
strings, the two are equal or either is a substring of the other (so a
whitespace-only submission, which trims to the empty string, is accepted,
while the exactly-empty submission is rejected outright). -/
theorem check_answer_spec (c : Card) (ans : String) :
    checkAnswer c ans = (!(ans == "") && specAnswerOK c ans) := by
  by_cases h : ans = "" <;> simp [checkAnswer, specAnswerOK, h]

/-- C9: `isTricky` returns true iff the command is longer than 40 bytes,
contains a pipe, contains `&&`, has at least two flag occurrences counted
as occurrences of the substrings `" -"` and `" --"`, contains `-rf`, or
contains `--force`. -/
theorem is_tricky_spec (cmd : String) :
    isTricky cmd = true ↔
      (40 < cmd.utf8ByteSize ∨ strContainsStr cmd "|" = true ∨
       strContainsStr cmd "&&" = true ∨
       2 ≤ strCount cmd " -" + strCount cmd " --" ∨
       strContainsStr cmd "-rf" = true ∨ strContainsStr cmd "--force" = true) := by
  simp [isTricky, Bool.or_eq_true, decide_eq_true_eq, or_assoc]

/-- C9 (witness): `git rebase -i HEAD~5 --autosquash` is tricky. -/
theorem is_tricky_spec_witness :
    isTricky "git rebase -i HEAD~5 --autosquash" = true :=
  (is_tricky_spec "git rebase -i HEAD~5 --autosquash").mpr (by decide)

/-- C5 (code evaluated at the failing input): canonicalization is not
idempotent.  On `cmd --file --a x` the first pass reorders the standalone
long flags, putting `--file` directly before `x`; the second pass then
fires the flag-value substitution and masks `x` as `<FILE>`. -/
theorem normalize_not_idempotent :
    normalizeCommand "cmd --file --a x" = some "cmd --a --file x" ∧
    normalizeCommand "cmd --a --file x" = some "cmd --a --file <FILE>" ∧
    ¬ ((normalizeCommand "cmd --file --a x").bind normalizeCommand =
        normalizeCommand "cmd --file --a x") := by decide

/-- C6 (code evaluated at the failing input): canonicalization is not
total.  On `--all` every token is a standalone long flag, the
non-reorderable token list of `stableFlagOrder` is empty, and the slice
`rest[0:1]` (modelled as `none`) panics with an index out of range. -/
theorem normalize_panics_on_all_flags :
    stableFlagOrder ["--all"] = none ∧ normalizeCommand "--all" = none := by decide

/-- Inserting a card with `insertBySeen` permutes consing it. -/
theorem insertBySeen_perm (c : Card) (l : List Card) :
    (insertBySeen c l).Perm (c :: l) := by
  induction l with
  | nil => simp [insertBySeen]
  | cons d ds ih =>
    simp only [insertBySeen]
    split
    · exact (ih.cons d).trans (List.Perm.swap c d ds)
    · exact List.Perm.refl _

/-- `insertBySeen` preserves sortedness by descending seen count. -/
theorem insertBySeen_sorted {c : Card} {l : List Card}
    (h : l.Pairwise (fun a b => b.SeenCount ≤ a.SeenCount)) :
    (insertBySeen c l).Pairwise (fun a b => b.SeenCount ≤ a.SeenCount) := by
  induction l with
  | nil => simp [insertBySeen]
  | cons d ds ih =>
    rcases List.pairwise_cons.1 h with ⟨hd, hds⟩
    simp only [insertBySeen]
    split
    · rename_i hc
      refine List.pairwise_cons.2 ⟨?_, ih hds⟩
      intro e he
      rcases List.mem_cons.1 ((insertBySeen_perm c ds).mem_iff.1 he) with h1 | h2
      · subst h1; exact hc
      · exact hd e h2
    · rename_i hc
      refine List.pairwise_cons.2 ⟨?_, h⟩
      intro e he
      rcases List.mem_cons.1 he with h1 | h2
      · subst h1; omega
      · have := hd e h2; omega

/-- Filtering by an exact seen count commutes with `insertBySeen` on a
sorted accumulator: the inserted card lands after every kept card. -/
theorem insertBySeen_filter (k : Int) (c : Card) (l : List Card)
    (h : l.Pairwise (fun a b => b.SeenCount ≤ a.SeenCount)) :
    (insertBySeen c l).filter (fun d => d.SeenCount == k) =
      l.filter (fun d => d.SeenCount == k) ++
        (if c.SeenCount == k then [c] else []) := by
  induction l with
  | nil =>
    by_cases hck : (c.SeenCount == k) = true <;> simp [insertBySeen, hck]
  | cons d ds ih =>
    rcases List.pairwise_cons.1 h with ⟨hd, hds⟩
    simp only [insertBySeen]
    split
    · rename_i hc
      simp only [List.filter_cons]
      rw [ih hds]
      split <;> simp [List.append_assoc]
    · rename_i hc
      by_cases hck : (c.SeenCount == k) = true
      · have hkeq : c.SeenCount = k := by simpa using hck
        have hnil : (d :: ds).filter (fun e => e.SeenCount == k) = [] := by
          refine List.filter_eq_nil_iff.2 ?_
          intro a ha
          rcases List.mem_cons.1 ha with h1 | h2
          · subst h1; simp only [beq_iff_eq]; omega
          · have := hd a h2; simp only [beq_iff_eq]; omega
        simp [List.filter_cons, hck, hnil]
      · simp [List.filter_cons, hck]

/-- Permutation property of the stable sort fold. -/
theorem sortFold_perm (l acc : List Card) :
    (l.foldl (fun a c => insertBySeen c a) acc).Perm (acc ++ l) := by
  induction l generalizing acc with
  | nil => simp
  | cons c t ih =>
    simp only [List.foldl_cons]
    refine (ih (insertBySeen c acc)).trans ?_
    refine ((insertBySeen_perm c acc).append_right t).trans ?_
    exact List.perm_middle.symm

/-- The stable sort fold yields a list sorted by descending seen count. -/
theorem sortFold_sorted (l : List Card) (acc : List Card)
    (h : acc.Pairwise (fun a b => b.SeenCount ≤ a.SeenCount)) :
    (l.foldl (fun a c => insertBySeen c a) acc).Pairwise
      (fun a b => b.SeenCount ≤ a.SeenCount) := by
  induction l generalizing acc with
  | nil => exact h
  | cons c t ih =>
    simp only [List.foldl_cons]
    exact ih _ (insertBySeen_sorted h)

/-- Stability of the sort fold: the subsequence of cards with any fixed
seen count is preserved. -/
theorem sortFold_filter (k : Int) (l : List Card) (acc : List Card)
    (h : acc.Pairwise (fun a b => b.SeenCount ≤ a.SeenCount)) :
    (l.foldl (fun a c => insertBySeen c a) acc).filter (fun d => d.SeenCount == k) =
      acc.filter (fun d => d.SeenCount == k) ++ l.filter (fun d => d.SeenCount == k) := by
  induction l generalizing acc with
  | nil => simp
  | cons c t ih =>
    simp only [List.foldl_cons]
    rw [ih _ (insertBySeen_sorted h), insertBySeen_filter k c acc h]
    simp only [List.filter_cons]
    split <;> simp [List.append_assoc]

/-- C3: `dueCards` returns exactly the cards with `nextDue ≤ now` (a card
is due iff `nextDue ≤ now`, and the output is a permutation of the due
filter), ordered by descending `seenCount`, stably (the subsequence at
each fixed seen count is exactly that of the input filter); in particular
three simultaneously due cards with seen counts 5, 1, 3 come back ordered
5, 3, 1. -/
theorem due_cards_spec (cards : List Card) (now : Int) :
    (∀ c : Card, c.Due now = decide (c.NextDue ≤ now)) ∧
    (DueCards cards now).Perm (cards.filter (fun c => c.Due now)) ∧
    List.Pairwise (fun a b => b.SeenCount ≤ a.SeenCount) (DueCards cards now) ∧
    (∀ k : Int, (DueCards cards now).filter (fun c => c.SeenCount == k) =
      (cards.filter (fun c => c.Due now)).filter (fun c => c.SeenCount == k)) ∧
    DueCards [seenCard5, seenCard1, seenCard3] 0 = [seenCard5, seenCard3, seenCard1] := by
  refine ⟨?_, ?_, ?_, ?_, by rfl⟩
  · intro c
    simp [Card.Due, ← decide_not, not_lt]
  · simpa using sortFold_perm (cards.filter (fun c => c.Due now)) []
  · exact sortFold_sorted _ [] (by simp)
  · intro k
    simpa using sortFold_filter k (cards.filter (fun c => c.Due now)) [] (by simp)

/-- C3 (witness): the due-selection theorem instantiated, extracting the
concrete ordering example. -/
theorem due_cards_spec_witness :
    DueCards [seenCard5, seenCard1, seenCard3] 0 = [seenCard5, seenCard3, seenCard1] :=
  (due_cards_spec [] 0).2.2.2.2

/-- `modifyIdx` preserves length. -/
theorem modifyIdx_length (f : α → α) (j : Nat) (l : List α) :
    (modifyIdx f j l).length = l.length := by
  induction l generalizing j with
  | nil => cases j <;> rfl
  | cons a t ih => cases j <;> simp [modifyIdx, ih]

/-- `modifyIdx` leaves other positions unchanged. -/
theorem modifyIdx_getD_ne (f : α → α) (j i : Nat) (l : List α) (d : α)
    (h : i ≠ j) : (modifyIdx f j l).getD i d = l.getD i d := by
  induction l generalizing i j with
  | nil => cases j <;> rfl
  | cons a t ih =>
    cases j with
    | zero =>
      cases i with
      | zero => exact absurd rfl h
      | succ i2 => simp [modifyIdx]
    | succ j2 =>
      cases i with
      | zero => simp [modifyIdx]
      | succ i2 => simpa [modifyIdx] using ih j2 i2 (by omega)

/-- `modifyIdx` applies `f` at the modified position. -/
theorem modifyIdx_getD_eq (f : α → α) (j : Nat) (l : List α) (d : α)
    (h : j < l.length) : (modifyIdx f j l).getD j d = f (l.getD j d) := by
  induction l generalizing j with
  | nil => simp at h
  | cons a t ih =>
    cases j with
    | zero => simp [modifyIdx]
    | succ j2 => simpa [modifyIdx] using ih j2 (by simpa using h)

/-- `modifyIdx` below the drop point leaves the dropped suffix unchanged. -/
theorem modifyIdx_drop (f : α → α) (j n : Nat) (l : List α) (h : j < n) :
    (modifyIdx f j l).drop n = l.drop n := by
  induction l generalizing j n with
  | nil => cases j <;> rfl
  | cons a t ih =>
    cases j with
    | zero =>
      cases n with
      | zero => omega
      | succ n2 => simp [modifyIdx]
    | succ j2 =>
      cases n with
      | zero => omega
      | succ n2 => simpa [modifyIdx] using ih j2 n2 (by omega)

/-- Mapping a function invariant under `f` through `modifyIdx f`. -/
theorem modifyIdx_map_inv (g : α → β) (f : α → α) (hgf : ∀ a, g (f a) = g a)
    (j : Nat) (l : List α) : (modifyIdx f j l).map g = l.map g := by
  induction l generalizing j with
  | nil => cases j <;> rfl
  | cons a t ih => cases j <;> simp [modifyIdx, hgf, ih]

/-- `getD` within the left part of an append. -/
theorem getD_append_left (l1 l2 : List α) (i : Nat) (d : α) (h : i < l1.length) :
    (l1 ++ l2).getD i d = l1.getD i d := by
  induction l1 generalizing i with
  | nil => simp at h
  | cons a t ih =>
    cases i with
    | zero => rfl
    | succ i2 => simpa using ih i2 (by simpa using h)

/-- `getD` at an in-range index is a member. -/
theorem getD_mem (l : List α) (i : Nat) (d : α) (h : i < l.length) :
    l.getD i d ∈ l := by
  induction l generalizing i with
  | nil => simp at h
  | cons a t ih =>
    cases i with
    | zero => simp
    | succ i2 => simpa using Or.inr (ih i2 (by simpa using h))

/-- `getD` commutes with `map` at in-range indices. -/
theorem getD_map (g : α → β) (l : List α) (i : Nat) (d : α) (d2 : β)
    (h : i < l.length) : (l.map g).getD i d2 = g (l.getD i d) := by
  induction l generalizing i with
  | nil => simp at h
  | cons a t ih =>
    cases i with
    | zero => rfl
    | succ i2 => simpa using ih i2 (by simpa using h)

/-- Specification of `findLastIdx` on success: an in-range index holding
the searched id. -/
theorem findLastIdx_some_spec :
    ∀ (ids : List String) (id : String) (j : Nat),
      findLastIdx ids id = some j → j < ids.length ∧ ids.getD j "" = id := by
  intro ids
  induction ids with
  | nil => intro id j h; simp [findLastIdx] at h
  | cons x t ih =>
    intro id j h
    simp only [findLastIdx] at h
    cases hf : findLastIdx t id with
    | some j2 =>
      rw [hf] at h
      simp only [Option.some.injEq] at h
      subst h
      obtain ⟨h1, h2⟩ := ih id j2 hf
      exact ⟨by simpa using Nat.succ_lt_succ h1, by simpa using h2⟩
    | none =>
      rw [hf] at h
      by_cases hx : (x == id) = true
      · rw [if_pos hx] at h
        simp only [Option.some.injEq] at h
        subst h
        exact ⟨by simp, by simpa using hx⟩
      · rw [if_neg hx] at h
        cases h

/-- `findLastIdx` fails exactly on ids absent from the list. -/
theorem findLastIdx_none_iff (ids : List String) (id : String) :
    findLastIdx ids id = none ↔ ¬ id ∈ ids := by
  induction ids with
  | nil => simp [findLastIdx]
  | cons x t ih =>
    simp only [findLastIdx, List.mem_cons]
    cases hf : findLastIdx t id with
    | some j =>
      have hmem : id ∈ t := by
        obtain ⟨h1, h2⟩ := findLastIdx_some_spec t id j hf
        exact h2 ▸ getD_mem t j "" h1
      simp [hmem]
    | none =>
      by_cases hx : (x == id) = true
      · have : x = id := by simpa using hx
        simp [if_pos hx, this]
      · have hne : ¬ id = x := fun he => hx (by simp [he])
        simp only [if_neg hx]
        simp [hne, ih.1 hf, ih]

/-- `findLastIdx` over an append prefers the right-hand part. -/
theorem findLastIdx_append (a b : List String) (id : String) :
    findLastIdx (a ++ b) id =
      match findLastIdx b id with
      | some k => some (a.length + k)
      | none => findLastIdx a id := by
  induction a with
  | nil => cases hb : findLastIdx b id <;> simp [hb, findLastIdx]
  | cons x t ih =>
    simp only [List.cons_append, findLastIdx, List.append_eq]
    rw [ih]
    cases hb : findLastIdx b id with
    | some k =>
      simp only [List.length_cons]
      exact congrArg some (by omega)
    | none => rfl

/-- One upsert step never shrinks the accumulator. -/
theorem upsertStep_length_ge (eids : List String) (acc : List Card) (c : Card) :
    acc.length ≤ (upsertStep eids acc c).length := by
  unfold upsertStep
  cases findLastIdx eids c.ID <;> simp [modifyIdx_length]

/-- The upsert fold never shrinks the accumulator. -/
theorem upsert_fold_length_ge (eids : List String) (inc : List Card) :
    ∀ acc : List Card, acc.length ≤ (inc.foldl (upsertStep eids) acc).length := by
  induction inc with
  | nil => intro acc; exact Nat.le_refl _
  | cons c t ih =>
    intro acc
    rw [List.foldl_cons]
    exact Nat.le_trans (upsertStep_length_ge eids acc c) (ih _)

/-- Any card projection invariant under `mergeInto` is preserved at every
originally-existing position of the upsert fold. -/
theorem upsert_fold_proj (g : Card → α) (hg : ∀ e c, g (mergeInto e c) = g e)
    (eids : List String) (inc : List Card) :
    ∀ (acc : List Card) (i : Nat) (d : Card), i < acc.length →
      g ((inc.foldl (upsertStep eids) acc).getD i d) = g (acc.getD i d) := by
  induction inc with
  | nil => intro acc i d _; rfl
  | cons c t ih =>
    intro acc i d h
    rw [List.foldl_cons]
    have hlen : i < (upsertStep eids acc c).length :=
      Nat.lt_of_lt_of_le h (upsertStep_length_ge eids acc c)
    rw [ih _ i d hlen]
    unfold upsertStep
    cases hf : findLastIdx eids c.ID with
    | some j =>
      by_cases hij : i = j
      · subst hij
        rw [modifyIdx_getD_eq _ _ _ _ h]
        exact hg _ _
      · rw [modifyIdx_getD_ne _ _ _ _ _ hij]
    | none => exact congrArg g (getD_append_left acc [c] i d h)

/-- A successful `genStep` either keeps the output list or appends one new
card, which has box 1. -/
theorem genStep_out (hash : String → String) (nowT : Int) (eids : List String)
    (st : GenState) (ev : CommandEvent) (st1 : GenState)
    (h : genStep hash nowT eids st ev = some st1) :
    st1.out = st.out ∨ ∃ card : Card, st1.out = st.out ++ [card] ∧ card.Box = 1 := by
  unfold genStep at h
  split at h
  · simp only [Option.some.injEq] at h
    subst h
    exact Or.inl rfl
  · split at h
    · cases h
    · split at h
      · simp only [Option.some.injEq] at h
        subst h
        exact Or.inl rfl
      · split at h
        · simp only [Option.some.injEq] at h
          subst h
          exact Or.inl rfl
        · simp only [Option.some.injEq] at h
          subst h
          exact Or.inr ⟨_, rfl, rfl⟩

/-- Box-1 invariant of the output list through the `GenerateCards` fold. -/
theorem gen_fold_box (hash : String → String) (nowT : Int) (eids : List String) :
    ∀ (events : List CommandEvent) (st st2 : GenState),
      events.foldlM (genStep hash nowT eids) st = some st2 →
      (∀ c ∈ st.out, c.Box = 1) → ∀ c ∈ st2.out, c.Box = 1 := by
  intro events
  induction events with
  | nil =>
    intro st st2 h hinv
    simp only [List.foldlM_nil] at h
    simp only [pure, Option.some.injEq] at h
    subst h
    exact hinv
  | cons ev evs ih =>
    intro st st2 h hinv
    rw [List.foldlM_cons] at h
    cases hg : genStep hash nowT eids st ev with
    | none => rw [hg] at h; cases h
    | some st1 =>
      rw [hg] at h
      refine ih st1 st2 h ?_
      rcases genStep_out hash nowT eids st ev st1 hg with h1 | ⟨card, h2, h3⟩
      · rw [h1]; exact hinv
      · rw [h2]
        intro c hc
        rcases List.mem_append.1 hc with hl | hr
        · exact hinv c hl
        · rw [List.mem_singleton.1 hr]; exact h3

/-- C2: the box invariant `box ∈ {1,...,5}`: generated cards start in
box 1, grading keeps the box within `[1,5]`, and merging never changes the
box of an existing card. -/
theorem box_invariant :
    (∀ (hash : String → String) (nowT : Int) (events : List CommandEvent)
        (existing out ex : List Card),
        GenerateCards hash nowT events existing = some (out, ex) →
        ∀ c ∈ out, c.Box = 1) ∧
    (∀ (c : Card) (correct : Bool) (now : Int),
        1 ≤ c.Box → c.Box ≤ 5 →
        1 ≤ (Grade c correct now).Box ∧ (Grade c correct now).Box ≤ 5) ∧
    (∀ (E I : List Card) (i : Nat) (d : Card), i < E.length →
        ((UpsertCards E I).getD i d).Box = (E.getD i d).Box) := by
  refine ⟨?_, ?_, ?_⟩
  · intro hash nowT events existing out ex h c hc
    unfold GenerateCards at h
    cases hf : events.foldlM (genStep hash nowT (existing.map Card.ID))
        { ex := existing, out := [], seen := [] } with
    | none => rw [hf] at h; cases h
    | some st =>
      rw [hf] at h
      simp only [Option.some.injEq, Prod.mk.injEq] at h
      exact gen_fold_box hash nowT (existing.map Card.ID) events _ st hf
        (by intro c2 hc2; simp at hc2) c (h.1 ▸ hc)
  · intro c correct now h1 h5
    cases correct <;> simp only [Grade, Card.Touch] <;> split_ifs <;>
      constructor <;> simp <;> omega
  · intro E I i d h
    unfold UpsertCards
    exact upsert_fold_proj Card.Box (fun _ _ => rfl) (E.map Card.ID) I E i d h

/-- C2 (witness): the box invariant instantiated: grading a box-2 card,
merging a fresh incoming card over one existing card, and the card
generated from a concrete tricky event. -/
theorem box_invariant_witness :
    (1 ≤ (Grade box2Card true 0).Box ∧ (Grade box2Card true 0).Box ≤ 5) ∧
    ((UpsertCards [wExist] [wInc]).getD 0 default).Box = ([wExist].getD 0 default).Box ∧
    wGenCard.Box = 1 :=
  ⟨box_invariant.2.1 box2Card true 0 (by decide) (by decide),
   box_invariant.2.2 [wExist] [wInc] 0 default (by decide),
   box_invariant.1 (fun s => s) 7 [wEvent] [] [wGenCard] [] (by decide) wGenCard
     (by simp)⟩

/-- `contains` on string lists agrees with membership. -/
theorem containsStr_iff_mem (l : List String) (s : String) :
    l.contains s = true ↔ s ∈ l := by
  simp [List.contains, List.elem_iff]

/-- Membership in the deduplication accumulator `uniqueAux`. -/
theorem mem_uniqueAux (l : List String) :
    ∀ (seen : List String) (t : String),
      t ∈ uniqueAux seen l ↔ (t ∈ l ∧ ¬ t ∈ seen) := by
  induction l with
  | nil => intro seen t; simp [uniqueAux]
  | cons s rest ih =>
    intro seen t
    simp only [uniqueAux]
    by_cases hs : seen.contains s = true
    · rw [if_pos hs, ih]
      have hsm : s ∈ seen := (containsStr_iff_mem seen s).1 hs
      simp only [List.mem_cons]
      constructor
      · rintro ⟨h1, h2⟩; exact ⟨Or.inr h1, h2⟩
      · rintro ⟨h1 | h1, h2⟩
        · exact absurd (h1 ▸ hsm) h2
        · exact ⟨h1, h2⟩
    · rw [if_neg hs]
      have hsm : ¬ s ∈ seen := fun hm => hs ((containsStr_iff_mem seen s).2 hm)
      simp only [List.mem_cons, ih, List.mem_append, List.mem_singleton]
      constructor
      · rintro (rfl | ⟨h1, h2⟩)
        · exact ⟨Or.inl rfl, hsm⟩
        · exact ⟨Or.inr h1, fun hm => h2 (Or.inl hm)⟩
      · rintro ⟨rfl | h1, h2⟩
        · exact Or.inl rfl
        · by_cases hts : t = s
          · exact Or.inl hts
          · refine Or.inr ⟨h1, fun hm => ?_⟩
            exact hm.elim h2 (fun hh => hh.elim hts (fun hx => (List.not_mem_nil t) hx))

/-- Membership in the tag union. -/
theorem mem_unionTags (a b : List String) (t : String) :
    t ∈ unionTags a b ↔ t ∈ a ∨ t ∈ b := by
  simp [unionTags, uniqueStrs, mem_uniqueAux]

/-- One upsert step, seen from a fixed index: the position is unchanged or
(only at the index found for the incoming id) merged. -/
theorem upsertStep_getD (eids : List String) (acc : List Card) (c : Card)
    (i : Nat) (d : Card) (h : i < acc.length) :
    (upsertStep eids acc c).getD i d = acc.getD i d ∨
    (findLastIdx eids c.ID = some i ∧
     (upsertStep eids acc c).getD i d = mergeInto (acc.getD i d) c) := by
  unfold upsertStep
  cases hf : findLastIdx eids c.ID with
  | some j =>
    by_cases hij : i = j
    · subst hij
      exact Or.inr ⟨rfl, modifyIdx_getD_eq _ _ _ _ h⟩
    · exact Or.inl (modifyIdx_getD_ne _ _ _ _ _ hij)
  | none => exact Or.inl (getD_append_left acc [c] i d h)

/-- One upsert step never changes the id at any existing position. -/
theorem upsertStep_id (eids : List String) (acc : List Card) (c : Card)
    (i : Nat) (d : Card) (h : i < acc.length) :
    ((upsertStep eids acc c).getD i d).ID = (acc.getD i d).ID := by
  rcases upsertStep_getD eids acc c i d h with h1 | ⟨_, h2⟩
  · rw [h1]
  · rw [h2]; rfl

/-- Through the whole fold, a non-blank `Prompt`-like field of an existing
card is never overwritten. -/
theorem upsert_fold_fill (g : Card → String)
    (hg : ∀ e c, g (mergeInto e c) = if g e = "" then g c else g e)
    (eids : List String) (inc : List Card) :
    ∀ (acc : List Card) (i : Nat) (d : Card), i < acc.length →
      g (acc.getD i d) ≠ "" →
      g ((inc.foldl (upsertStep eids) acc).getD i d) = g (acc.getD i d) := by
  induction inc with
  | nil => intro acc i d _ _; rfl
  | cons c t ih =>
    intro acc i d h hne
    rw [List.foldl_cons]
    have hstep : g ((upsertStep eids acc c).getD i d) = g (acc.getD i d) := by
      rcases upsertStep_getD eids acc c i d h with h1 | ⟨_, h2⟩
      · rw [h1]
      · rw [h2, hg, if_neg hne]
    have hlen : i < (upsertStep eids acc c).length :=
      Nat.lt_of_lt_of_le h (upsertStep_length_ge eids acc c)
    rw [ih _ i d hlen (by rw [hstep]; exact hne), hstep]

/-- Through the whole fold, a `Prompt`-like field of an existing card is
either kept or filled from some incoming card with the matching id. -/
theorem upsert_fold_blank (g : Card → String)
    (hg : ∀ e c, g (mergeInto e c) = if g e = "" then g c else g e)
    (eids : List String) (inc : List Card) :
    ∀ (acc : List Card) (i : Nat) (d : Card),
      i < acc.length → eids.length ≤ acc.length →
      (∀ (j : Nat) (d2 : Card), j < eids.length →
        ((acc.getD j d2) : Card).ID = eids.getD j "") →
      (g ((inc.foldl (upsertStep eids) acc).getD i d) = g (acc.getD i d) ∨
       ∃ c2 ∈ inc, c2.ID = (acc.getD i d).ID ∧
         g ((inc.foldl (upsertStep eids) acc).getD i d) = g c2) := by
  induction inc with
  | nil => intro acc i d _ _ _; exact Or.inl rfl
  | cons c t ih =>
    intro acc i d h hlen2 hacc
    rw [List.foldl_cons]
    have hlen : i < (upsertStep eids acc c).length :=
      Nat.lt_of_lt_of_le h (upsertStep_length_ge eids acc c)
    have hlen2b : eids.length ≤ (upsertStep eids acc c).length :=
      Nat.le_trans hlen2 (upsertStep_length_ge eids acc c)
    have hacc2 : ∀ (j : Nat) (d2 : Card), j < eids.length →
        (((upsertStep eids acc c).getD j d2) : Card).ID = eids.getD j "" := by
      intro j d2 hj
      rw [upsertStep_id eids acc c j d2 (Nat.lt_of_lt_of_le hj hlen2)]
      exact hacc j d2 hj
    rcases ih (upsertStep eids acc c) i d hlen hlen2b hacc2 with h1 | ⟨c2, hc2, hid, heq⟩
    · rcases upsertStep_getD eids acc c i d h with h2 | ⟨hf, h3⟩
      · exact Or.inl (by rw [h1, h2])
      · have hidc : c.ID = (acc.getD i d).ID := by
          obtain ⟨hjlen, hjid⟩ := findLastIdx_some_spec eids c.ID i hf
          rw [hacc i d hjlen, hjid]
        by_cases hb : g (acc.getD i d) = ""
        · exact Or.inr ⟨c, List.mem_cons_self c t, hidc, by rw [h1, h3, hg, if_pos hb]⟩
        · exact Or.inl (by rw [h1, h3, hg, if_neg hb])
    · refine Or.inr ⟨c2, List.mem_cons_of_mem c hc2, ?_, heq⟩
      rw [← upsertStep_id eids acc c i d h]
      exact hid

/-- Through the whole fold, the tag set of an existing card only grows, and
only by tags of incoming cards with the matching id. -/
theorem upsert_fold_tags (eids : List String) (inc : List Card) :
    ∀ (acc : List Card) (i : Nat) (d : Card),
      i < acc.length → eids.length ≤ acc.length →
      (∀ (j : Nat) (d2 : Card), j < eids.length →
        ((acc.getD j d2) : Card).ID = eids.getD j "") →
      ((∀ s, s ∈ (acc.getD i d).Tags →
          s ∈ ((inc.foldl (upsertStep eids) acc).getD i d).Tags) ∧
       (∀ s, s ∈ ((inc.foldl (upsertStep eids) acc).getD i d).Tags →
          s ∈ (acc.getD i d).Tags ∨
          ∃ c2 ∈ inc, c2.ID = (acc.getD i d).ID ∧ s ∈ c2.Tags)) := by
  induction inc with
  | nil => intro acc i d _ _ _; exact ⟨fun s hs => hs, fun s hs => Or.inl hs⟩
  | cons c t ih =>
    intro acc i d h hlen2 hacc
    rw [List.foldl_cons]
    have hlen : i < (upsertStep eids acc c).length :=
      Nat.lt_of_lt_of_le h (upsertStep_length_ge eids acc c)
    have hlen2b : eids.length ≤ (upsertStep eids acc c).length :=
      Nat.le_trans hlen2 (upsertStep_length_ge eids acc c)
    have hacc2 : ∀ (j : Nat) (d2 : Card), j < eids.length →
        (((upsertStep eids acc c).getD j d2) : Card).ID = eids.getD j "" := by
      intro j d2 hj
      rw [upsertStep_id eids acc c j d2 (Nat.lt_of_lt_of_le hj hlen2)]
      exact hacc j d2 hj
    obtain ⟨ihf, ihb⟩ := ih (upsertStep eids acc c) i d hlen hlen2b hacc2
    rcases upsertStep_getD eids acc c i d h with h2 | ⟨hf, h3⟩
    · refine ⟨fun s hs => ihf s (by rw [h2]; exact hs), fun s hs => ?_⟩
      rcases ihb s hs with hs1 | ⟨c2, hc2, hid, hmem⟩
      · exact Or.inl (by rw [← h2]; exact hs1)
      · refine Or.inr ⟨c2, List.mem_cons_of_mem c hc2, ?_, hmem⟩
        rw [← h2]; exact hid
    · have hidc : c.ID = (acc.getD i d).ID := by
        obtain ⟨hjlen, hjid⟩ := findLastIdx_some_spec eids c.ID i hf
        rw [hacc i d hjlen, hjid]
      have hmerge : ∀ s, s ∈ ((upsertStep eids acc c).getD i d).Tags ↔
          (s ∈ (acc.getD i d).Tags ∨ s ∈ c.Tags) := by
        intro s
        rw [h3]
        exact mem_unionTags _ _ s
      refine ⟨fun s hs => ihf s ((hmerge s).2 (Or.inl hs)), fun s hs => ?_⟩
      rcases ihb s hs with hs1 | ⟨c2, hc2, hid, hmem⟩
      · rcases (hmerge s).1 hs1 with hs2 | hs2
        · exact Or.inl hs2
        · exact Or.inr ⟨c, List.mem_cons_self c t, hidc, hs2⟩
      · refine Or.inr ⟨c2, List.mem_cons_of_mem c hc2, ?_, hmem⟩
        rw [← upsertStep_id eids acc c i d h]
        exact hid

/-- The new-card suffix of the upsert fold: the input tail beyond the
original length is extended, in order, by exactly the unmatched incoming
cards. -/
theorem upsert_fold_drop (eids : List String) (inc : List Card) :
    ∀ acc : List Card, eids.length ≤ acc.length →
      (inc.foldl (upsertStep eids) acc).drop eids.length =
        acc.drop eids.length ++
          inc.filter (fun c => (findLastIdx eids c.ID).isNone) := by
  induction inc with
  | nil => intro acc _; simp
  | cons c t ih =>
    intro acc hlen
    rw [List.foldl_cons, List.filter_cons]
    cases hf : findLastIdx eids c.ID with
    | some j =>
      have hj := (findLastIdx_some_spec _ _ _ hf).1
      have hstep : upsertStep eids acc c = modifyIdx (fun e => mergeInto e c) j acc := by
        unfold upsertStep; rw [hf]
      rw [ih _ (by rw [hstep, modifyIdx_length]; exact hlen)]
      rw [hstep, modifyIdx_drop _ _ _ _ hj]
      simp [hf]
    | none =>
      have hstep : upsertStep eids acc c = acc ++ [c] := by
        unfold upsertStep; rw [hf]
      rw [ih _ (by rw [hstep]; simp; omega)]
      rw [hstep, List.drop_append_of_le_length hlen]
      simp [hf]

/-- The `isNone` test of `findLastIdx` is the complement of the id-list
membership test. -/
theorem findLastIdx_isNone_eq (ids : List String) (id : String) :
    (findLastIdx ids id).isNone = !(ids.contains id) := by
  cases hf : findLastIdx ids id with
  | some j =>
    obtain ⟨h1, h2⟩ := findLastIdx_some_spec ids id j hf
    have hm : id ∈ ids := h2 ▸ getD_mem ids j "" h1
    rw [(containsStr_iff_mem ids id).2 hm]
    rfl
  | none =>
    have hm := (findLastIdx_none_iff ids id).1 hf
    cases hc : ids.contains id with
    | false => rfl
    | true => exact absurd ((containsStr_iff_mem ids id).1 hc) hm

/-- C8: merging modifies a matched existing card only by growing its tag
set (with tags of matching incoming cards) and by filling
`prompt`/`answer`/`hint` when blank; ids, commands and all review-state
fields of existing cards are unchanged, existing order is preserved
(position `i` still holds card `i`), and the unmatched incoming cards are
appended unchanged, in order, at the end. -/
theorem merge_frame (E I : List Card) :
    E.length ≤ (UpsertCards E I).length ∧
    (∀ (i : Nat) (d : Card), i < E.length →
      (((UpsertCards E I).getD i d).ID = (E.getD i d).ID ∧
       ((UpsertCards E I).getD i d).Command = (E.getD i d).Command ∧
       ((UpsertCards E I).getD i d).Box = (E.getD i d).Box ∧
       ((UpsertCards E I).getD i d).NextDue = (E.getD i d).NextDue ∧
       ((UpsertCards E I).getD i d).LastReviewed = (E.getD i d).LastReviewed ∧
       ((UpsertCards E I).getD i d).Streak = (E.getD i d).Streak ∧
       ((UpsertCards E I).getD i d).TimesSeen = (E.getD i d).TimesSeen ∧
       ((UpsertCards E I).getD i d).SeenCount = (E.getD i d).SeenCount) ∧
      ((E.getD i d).Prompt ≠ "" →
        ((UpsertCards E I).getD i d).Prompt = (E.getD i d).Prompt) ∧
      ((E.getD i d).Answer ≠ "" →
        ((UpsertCards E I).getD i d).Answer = (E.getD i d).Answer) ∧
      ((E.getD i d).Hint ≠ "" →
        ((UpsertCards E I).getD i d).Hint = (E.getD i d).Hint) ∧
      (((UpsertCards E I).getD i d).Prompt = (E.getD i d).Prompt ∨
        ∃ c ∈ I, c.ID = (E.getD i d).ID ∧
          ((UpsertCards E I).getD i d).Prompt = c.Prompt) ∧
      (((UpsertCards E I).getD i d).Answer = (E.getD i d).Answer ∨
        ∃ c ∈ I, c.ID = (E.getD i d).ID ∧
          ((UpsertCards E I).getD i d).Answer = c.Answer) ∧
      (((UpsertCards E I).getD i d).Hint = (E.getD i d).Hint ∨
        ∃ c ∈ I, c.ID = (E.getD i d).ID ∧
          ((UpsertCards E I).getD i d).Hint = c.Hint) ∧
      (∀ s, s ∈ (E.getD i d).Tags → s ∈ ((UpsertCards E I).getD i d).Tags) ∧
      (∀ s, s ∈ ((UpsertCards E I).getD i d).Tags →
        s ∈ (E.getD i d).Tags ∨ ∃ c ∈ I, c.ID = (E.getD i d).ID ∧ s ∈ c.Tags)) ∧
    (UpsertCards E I).drop E.length =
      I.filter (fun c => !((E.map Card.ID).contains c.ID)) := by
  have hlenE : (E.map Card.ID).length = E.length := List.length_map E Card.ID
  have hacc : ∀ (j : Nat) (d2 : Card), j < (E.map Card.ID).length →
      ((E.getD j d2) : Card).ID = (E.map Card.ID).getD j "" := by
    intro j d2 hj
    rw [getD_map Card.ID E j d2 "" (by rw [← hlenE]; exact hj)]
  refine ⟨?_, ?_, ?_⟩
  · exact hlenE ▸ upsert_fold_length_ge (E.map Card.ID) I E
  · intro i d h
    have hlen2 : (E.map Card.ID).length ≤ E.length := le_of_eq hlenE
    refine ⟨⟨?_, ?_, ?_, ?_, ?_, ?_, ?_, ?_⟩, ?_, ?_, ?_, ?_, ?_, ?_, ?_, ?_⟩
    · exact upsert_fold_proj Card.ID (fun _ _ => rfl) (E.map Card.ID) I E i d h
    · exact upsert_fold_proj Card.Command (fun _ _ => rfl) (E.map Card.ID) I E i d h
    · exact upsert_fold_proj Card.Box (fun _ _ => rfl) (E.map Card.ID) I E i d h
    · exact upsert_fold_proj Card.NextDue (fun _ _ => rfl) (E.map Card.ID) I E i d h
    · exact upsert_fold_proj Card.LastReviewed (fun _ _ => rfl) (E.map Card.ID) I E i d h
    · exact upsert_fold_proj Card.Streak (fun _ _ => rfl) (E.map Card.ID) I E i d h
    · exact upsert_fold_proj Card.TimesSeen (fun _ _ => rfl) (E.map Card.ID) I E i d h
    · exact upsert_fold_proj Card.SeenCount (fun _ _ => rfl) (E.map Card.ID) I E i d h
    · exact upsert_fold_fill Card.Prompt (fun _ _ => rfl) (E.map Card.ID) I E i d h
    · exact upsert_fold_fill Card.Answer (fun _ _ => rfl) (E.map Card.ID) I E i d h
    · exact upsert_fold_fill Card.Hint (fun _ _ => rfl) (E.map Card.ID) I E i d h
    · exact upsert_fold_blank Card.Prompt (fun _ _ => rfl) (E.map Card.ID) I E i d h hlen2 hacc
    · exact upsert_fold_blank Card.Answer (fun _ _ => rfl) (E.map Card.ID) I E i d h hlen2 hacc
    · exact upsert_fold_blank Card.Hint (fun _ _ => rfl) (E.map Card.ID) I E i d h hlen2 hacc
    · exact (upsert_fold_tags (E.map Card.ID) I E i d h hlen2 hacc).1
    · exact (upsert_fold_tags (E.map Card.ID) I E i d h hlen2 hacc).2
  · have hd := upsert_fold_drop (E.map Card.ID) I E (le_of_eq hlenE)
    rw [hlenE] at hd
    rw [UpsertCards, hd, List.drop_length, List.nil_append]
    exact List.filter_congr (fun c _ => findLastIdx_isNone_eq (E.map Card.ID) c.ID)

/-- C8 (witness): the frame theorem instantiated at one existing card and
two incoming cards (one matching, one fresh): the streak and the non-blank
prompt survive, and the suffix is the unmatched filter. -/
theorem merge_frame_witness :
    ((UpsertCards [wExist] [wIncMatch, wInc]).getD 0 default).Streak =
      ([wExist].getD 0 default).Streak ∧
    ((UpsertCards [wExist] [wIncMatch, wInc]).getD 0 default).Prompt =
      ([wExist].getD 0 default).Prompt ∧
    (UpsertCards [wExist] [wIncMatch, wInc]).drop 1 =
      [wIncMatch, wInc].filter (fun c => !(([wExist].map Card.ID).contains c.ID)) := by
  obtain ⟨h1, h2, h3⟩ := merge_frame [wExist] [wIncMatch, wInc]
  obtain ⟨hp, hfp, hfa, hfh, hbp, hba, hbh, htf, htb⟩ := h2 0 default (by decide)
  exact ⟨hp.2.2.2.2.2.1, hfp (by decide), h3⟩

/-- `CardSetEq` is reflexive. -/
theorem cardSetEq_refl (a : Card) : CardSetEq a a :=
  ⟨rfl, rfl, rfl, rfl, rfl, rfl, rfl, rfl, rfl, rfl, rfl, fun _ => Iff.rfl⟩

/-- `CardSetEq` is transitive. -/
theorem cardSetEq_trans {a b c : Card} (h1 : CardSetEq a b) (h2 : CardSetEq b c) :
    CardSetEq a c := by
  obtain ⟨e1, e2, e3, e4, e5, e6, e7, e8, e9, e10, e11, e12⟩ := h1
  obtain ⟨f1, f2, f3, f4, f5, f6, f7, f8, f9, f10, f11, f12⟩ := h2
  exact ⟨e1.trans f1, e2.trans f2, e3.trans f3, e4.trans f4, e5.trans f5,
    e6.trans f6, e7.trans f7, e8.trans f8, e9.trans f9, e10.trans f10,
    e11.trans f11, fun t => (e12 t).trans (f12 t)⟩

/-- Being absorbed transfers along `CardSetEq` of the absorbing card. -/
theorem absorbed_of_eq {c e e2 : Card} (h : CardSetEq e e2) (ha : Absorbed c e2) :
    Absorbed c e := by
  obtain ⟨t1, p1, a1, h1⟩ := ha
  obtain ⟨g1, g2, g3, g4, g5, g6, g7, g8, g9, g10, g11, g12⟩ := h
  refine ⟨fun t ht => (g12 t).2 (t1 t ht), ?_, ?_, ?_⟩
  · intro hp; exact p1 (by rw [← g2]; exact hp)
  · intro hp; exact a1 (by rw [← g3]; exact hp)
  · intro hp; exact h1 (by rw [← g4]; exact hp)

/-- Every card is absorbed in itself. -/
theorem absorbed_self (c : Card) : Absorbed c c :=
  ⟨fun _ ht => ht, fun h => h, fun h => h, fun h => h⟩

/-- Merging an absorbed card changes nothing, up to tag-set equality. -/
theorem mergeInto_absorbed {c e : Card} (h : Absorbed c e) :
    CardSetEq (mergeInto e c) e := by
  obtain ⟨ht, hp, ha, hh⟩ := h
  refine ⟨rfl, ?_, ?_, ?_, rfl, rfl, rfl, rfl, rfl, rfl, rfl, ?_⟩
  · show (if e.Prompt = "" then c.Prompt else e.Prompt) = e.Prompt
    by_cases hb : e.Prompt = ""
    · rw [if_pos hb, hp hb, hb]
    · rw [if_neg hb]
  · show (if e.Answer = "" then c.Answer else e.Answer) = e.Answer
    by_cases hb : e.Answer = ""
    · rw [if_pos hb, ha hb, hb]
    · rw [if_neg hb]
  · show (if e.Hint = "" then c.Hint else e.Hint) = e.Hint
    by_cases hb : e.Hint = ""
    · rw [if_pos hb, hh hb, hb]
    · rw [if_neg hb]
  · intro t
    show t ∈ unionTags e.Tags c.Tags ↔ t ∈ e.Tags
    rw [mem_unionTags]
    exact ⟨fun h2 => h2.elim id (fun h3 => ht t h3), Or.inl⟩

/-- `getD` at an in-range index does not depend on the default. -/
theorem getD_default_irrel (l : List α) (i : Nat) (d d2 : α) (h : i < l.length) :
    l.getD i d = l.getD i d2 := by
  induction l generalizing i with
  | nil => simp at h
  | cons a t ih =>
    cases i with
    | zero => rfl
    | succ i2 => simpa using ih i2 (by simpa using h)

/-- Positions never matched by any processed incoming card are untouched
by the upsert fold. -/
theorem upsert_fold_untouched (eids : List String) (inc : List Card) :
    ∀ (acc : List Card) (j : Nat) (d : Card), j < acc.length →
      (∀ c ∈ inc, findLastIdx eids c.ID ≠ some j) →
      (inc.foldl (upsertStep eids) acc).getD j d = acc.getD j d := by
  induction inc with
  | nil => intro acc j d _ _; rfl
  | cons c t ih =>
    intro acc j d h hne
    rw [List.foldl_cons]
    have hstep : (upsertStep eids acc c).getD j d = acc.getD j d := by
      rcases upsertStep_getD eids acc c j d h with h1 | ⟨hf, _⟩
      · exact h1
      · exact absurd hf (hne c (List.mem_cons_self c t))
    rw [ih _ j d (Nat.lt_of_lt_of_le h (upsertStep_length_ge _ _ _))
      (fun c2 hc2 => hne c2 (List.mem_cons_of_mem c hc2)), hstep]

/-- If every incoming card matches an existing id, the upsert fold appends
nothing. -/
theorem upsert_fold_length_eq (eids : List String) (inc : List Card) :
    ∀ acc : List Card, (∀ c ∈ inc, (findLastIdx eids c.ID).isSome = true) →
      (inc.foldl (upsertStep eids) acc).length = acc.length := by
  induction inc with
  | nil => intro acc _; rfl
  | cons c t ih =>
    intro acc hall
    rw [List.foldl_cons]
    rw [ih _ (fun c2 hc2 => hall c2 (List.mem_cons_of_mem c hc2))]
    cases hf : findLastIdx eids c.ID with
    | some j => unfold upsertStep; rw [hf]; exact modifyIdx_length _ _ _
    | none => exact absurd (hf ▸ hall c (List.mem_cons_self c t)) (by simp)

/-- The id sequence of the upsert fold result: the original ids followed by
the ids of the unmatched incoming cards. -/
theorem upsert_fold_map_id (eids : List String) (inc : List Card) :
    ∀ acc : List Card,
      (inc.foldl (upsertStep eids) acc).map Card.ID =
        acc.map Card.ID ++
          (inc.filter (fun c => (findLastIdx eids c.ID).isNone)).map Card.ID := by
  induction inc with
  | nil => intro acc; simp
  | cons c t ih =>
    intro acc
    rw [List.foldl_cons, List.filter_cons, ih]
    cases hf : findLastIdx eids c.ID with
    | some j =>
      have hstep : (upsertStep eids acc c).map Card.ID = acc.map Card.ID := by
        unfold upsertStep; rw [hf]
        exact modifyIdx_map_inv Card.ID (fun e => mergeInto e c) (fun _ => rfl) j acc
      rw [hstep]
      simp [hf]
    | none =>
      have hstep : upsertStep eids acc c = acc ++ [c] := by
        unfold upsertStep; rw [hf]
      rw [hstep]
      simp [hf]

/-- When exactly one incoming card matches position `j`, the fold result
at `j` is the single merge of that card. -/
theorem upsert_singleton_hit (eids : List String) (I1 I2 : List Card) (c : Card)
    (acc : List Card) (j : Nat) (d : Card) (hj : j < acc.length)
    (hf : findLastIdx eids c.ID = some j)
    (h1 : ∀ c2 ∈ I1, c2.ID ≠ c.ID) (h2 : ∀ c2 ∈ I2, c2.ID ≠ c.ID) :
    ((I1 ++ c :: I2).foldl (upsertStep eids) acc).getD j d =
      mergeInto (acc.getD j d) c := by
  have hne : ∀ (c2 : Card), c2.ID ≠ c.ID → findLastIdx eids c2.ID ≠ some j := by
    intro c2 hcid hfc
    obtain ⟨_, hid2⟩ := findLastIdx_some_spec _ _ _ hfc
    obtain ⟨_, hid⟩ := findLastIdx_some_spec _ _ _ hf
    exact hcid (by rw [← hid2, hid])
  rw [List.foldl_append, List.foldl_cons]
  have hj1 : j < (I1.foldl (upsertStep eids) acc).length :=
    Nat.lt_of_lt_of_le hj (upsert_fold_length_ge eids I1 acc)
  have hu1 : (I1.foldl (upsertStep eids) acc).getD j d = acc.getD j d :=
    upsert_fold_untouched eids I1 acc j d hj (fun c2 hc2 => hne c2 (h1 c2 hc2))
  have hstep : (upsertStep eids (I1.foldl (upsertStep eids) acc) c).getD j d =
      mergeInto ((I1.foldl (upsertStep eids) acc).getD j d) c := by
    unfold upsertStep; rw [hf]
    exact modifyIdx_getD_eq _ _ _ _ hj1
  have hj2 : j < (upsertStep eids (I1.foldl (upsertStep eids) acc) c).length :=
    Nat.lt_of_lt_of_le hj1 (upsertStep_length_ge _ _ _)
  rw [upsert_fold_untouched eids I2 _ j d hj2 (fun c2 hc2 => hne c2 (h2 c2 hc2)),
    hstep, hu1]

/-- With pairwise-distinct mapped ids, equal ids force equal cards. -/
theorem nodup_map_id_inj {I : List Card} (hnd : (I.map Card.ID).Nodup)
    {a b : Card} (ha : a ∈ I) (hb : b ∈ I) (hid : a.ID = b.ID) : a = b :=
  List.inj_on_of_nodup_map hnd ha hb hid

/-- Pointwise `CardSetEq` on equal-length lists gives `cardsEqB`. -/
theorem cardsEqB_of_pointwise :
    ∀ (l1 l2 : List Card), l1.length = l2.length →
      (∀ i : Nat, i < l1.length → CardSetEq (l1.getD i default) (l2.getD i default)) →
      cardsEqB l1 l2 = true := by
  intro l1
  induction l1 with
  | nil =>
    intro l2 hl _
    cases l2 with
    | nil => rfl
    | cons b t2 => simp at hl
  | cons a t ih =>
    intro l2 hl hp
    cases l2 with
    | nil => simp at hl
    | cons b t2 =>
      have h0 := hp 0 (by simp)
      have hab : cardEqB a b = true := by
        obtain ⟨e1, e2, e3, e4, e5, e6, e7, e8, e9, e10, e11, e12⟩ := h0
        simp only [cardEqB, tagsSetEqB, Bool.and_eq_true, beq_iff_eq,
          List.all_eq_true]
        refine ⟨⟨⟨⟨⟨⟨⟨⟨⟨⟨⟨e1, e2⟩, e3⟩, e4⟩, e5⟩, e6⟩, e7⟩, e8⟩, e9⟩, e10⟩, e11⟩,
          ?_, ?_⟩
        · intro s hs
          exact (containsStr_iff_mem _ _).2 ((e12 s).1 hs)
        · intro s hs
          exact (containsStr_iff_mem _ _).2 ((e12 s).2 hs)
      simp only [cardsEqB, Bool.and_eq_true]
      refine ⟨hab, ih t2 (by simpa using hl) ?_⟩
      intro i hi
      have := hp (i + 1) (by simpa using Nat.succ_lt_succ hi)
      simpa using this

/-- After one merge with pairwise-distinct incoming ids, every incoming
card is found by, and absorbed at, its lookup position in the merged
collection. -/
theorem absorbed_after_merge (E I : List Card) (hnd : (I.map Card.ID).Nodup)
    (c : Card) (hc : c ∈ I) :
    ∃ j, findLastIdx ((UpsertCards E I).map Card.ID) c.ID = some j ∧
      j < (UpsertCards E I).length ∧
      Absorbed c ((UpsertCards E I).getD j default) := by
  have hmap : (UpsertCards E I).map Card.ID =
      E.map Card.ID ++
        (I.filter (fun c2 => (findLastIdx (E.map Card.ID) c2.ID).isNone)).map Card.ID :=
    upsert_fold_map_id (E.map Card.ID) I E
  cases hfc : findLastIdx (E.map Card.ID) c.ID with
  | some j =>
    obtain ⟨hjlen, hjid⟩ := findLastIdx_some_spec _ _ _ hfc
    have hjlenE : j < E.length := by
      rw [← List.length_map E Card.ID]; exact hjlen
    have hcmem : c.ID ∈ E.map Card.ID := hjid ▸ getD_mem _ j "" hjlen
    have hnsuff : findLastIdx
        ((I.filter (fun c2 => (findLastIdx (E.map Card.ID) c2.ID).isNone)).map Card.ID)
        c.ID = none := by
      rw [findLastIdx_none_iff]
      intro hmem
      obtain ⟨d2, hd2, hd2id⟩ := List.mem_map.1 hmem
      have hd2f := (List.mem_filter.1 hd2).2
      have hd2none : findLastIdx (E.map Card.ID) d2.ID = none := by
        cases hx : findLastIdx (E.map Card.ID) d2.ID with
        | none => rfl
        | some k => rw [hx] at hd2f; simp at hd2f
      exact (findLastIdx_none_iff _ _).1 hd2none (hd2id ▸ hcmem)
    have hlook : findLastIdx ((UpsertCards E I).map Card.ID) c.ID = some j := by
      rw [hmap, findLastIdx_append, hnsuff]
      exact hfc
    obtain ⟨I1, I2, hI⟩ := List.append_of_mem hc
    have hndI : ((I1 ++ c :: I2).map Card.ID).Nodup := by rw [← hI]; exact hnd
    rw [List.map_append, List.map_cons] at hndI
    have hdisj := (List.nodup_append.1 hndI).2.2
    have hcons := (List.nodup_append.1 hndI).2.1
    have hI1 : ∀ c2 ∈ I1, c2.ID ≠ c.ID := by
      intro c2 hc2 he
      exact hdisj (List.mem_map_of_mem Card.ID hc2) (by rw [he]; exact List.mem_cons_self _ _)
    have hI2 : ∀ c2 ∈ I2, c2.ID ≠ c.ID := by
      intro c2 hc2 he
      exact (List.nodup_cons.1 hcons).1 (he ▸ List.mem_map_of_mem Card.ID hc2)
    have hval : (UpsertCards E I).getD j default = mergeInto (E.getD j default) c := by
      rw [show UpsertCards E I = I.foldl (upsertStep (E.map Card.ID)) E from rfl, hI]
      exact upsert_singleton_hit _ I1 I2 c E j default hjlenE hfc hI1 hI2
    refine ⟨j, hlook, Nat.lt_of_lt_of_le hjlenE (upsert_fold_length_ge _ I E), ?_⟩
    rw [hval]
    refine ⟨?_, ?_, ?_, ?_⟩
    · intro t ht
      exact (mem_unionTags _ _ t).2 (Or.inr ht)
    · intro hp
      by_cases hb : (E.getD j default).Prompt = ""
      · have : (mergeInto (E.getD j default) c).Prompt = c.Prompt := by
          show (if (E.getD j default).Prompt = "" then c.Prompt else _) = _
          rw [if_pos hb]
        rw [this] at hp; exact hp
      · have : (mergeInto (E.getD j default) c).Prompt = (E.getD j default).Prompt := by
          show (if (E.getD j default).Prompt = "" then _ else _) = _
          rw [if_neg hb]
        rw [this] at hp; exact absurd hp hb
    · intro hp
      by_cases hb : (E.getD j default).Answer = ""
      · have : (mergeInto (E.getD j default) c).Answer = c.Answer := by
          show (if (E.getD j default).Answer = "" then c.Answer else _) = _
          rw [if_pos hb]
        rw [this] at hp; exact hp
      · have : (mergeInto (E.getD j default) c).Answer = (E.getD j default).Answer := by
          show (if (E.getD j default).Answer = "" then _ else _) = _
          rw [if_neg hb]
        rw [this] at hp; exact absurd hp hb
    · intro hp
      by_cases hb : (E.getD j default).Hint = ""
      · have : (mergeInto (E.getD j default) c).Hint = c.Hint := by
          show (if (E.getD j default).Hint = "" then c.Hint else _) = _
          rw [if_pos hb]
        rw [this] at hp; exact hp
      · have : (mergeInto (E.getD j default) c).Hint = (E.getD j default).Hint := by
          show (if (E.getD j default).Hint = "" then _ else _) = _
          rw [if_neg hb]
        rw [this] at hp; exact absurd hp hb
  | none =>
    have hcs : c ∈ I.filter (fun c2 => (findLastIdx (E.map Card.ID) c2.ID).isNone) :=
      List.mem_filter.2 ⟨hc, by rw [hfc]; rfl⟩
    have hcmem2 : c.ID ∈ (UpsertCards E I).map Card.ID := by
      rw [hmap]
      exact List.mem_append.2 (Or.inr (List.mem_map_of_mem Card.ID hcs))
    cases hlook : findLastIdx ((UpsertCards E I).map Card.ID) c.ID with
    | none => exact absurd hcmem2 ((findLastIdx_none_iff _ _).1 hlook)
    | some j =>
      obtain ⟨hjlen, hjid⟩ := findLastIdx_some_spec _ _ _ hlook
      have hjlen2 : j < (UpsertCards E I).length := by
        rw [← List.length_map (UpsertCards E I) Card.ID]; exact hjlen
      have hgid : ((UpsertCards E I).getD j default).ID = c.ID := by
        rw [← getD_map Card.ID (UpsertCards E I) j default "" hjlen2]
        exact hjid
      have hmem : (UpsertCards E I).getD j default ∈ UpsertCards E I :=
        getD_mem _ _ _ hjlen2
      have heq : (UpsertCards E I).getD j default = c := by
        have hmem2 : (UpsertCards E I).getD j default ∈
            List.take E.length (UpsertCards E I) ++ List.drop E.length (UpsertCards E I) := by
          rw [List.take_append_drop]
          exact hmem
        rcases List.mem_append.1 hmem2 with htake | hdrop
        · have htakemap : ((UpsertCards E I).take E.length).map Card.ID =
              E.map Card.ID := by
            rw [List.map_take, hmap, ← List.length_map E Card.ID]
            exact List.take_left _ _
          have hidmem : c.ID ∈ E.map Card.ID := by
            rw [← hgid, ← htakemap]
            exact List.mem_map_of_mem Card.ID htake
          exact absurd hidmem ((findLastIdx_none_iff _ _).1 hfc)
        · have hdropeq : (UpsertCards E I).drop E.length =
              I.filter (fun c2 => (findLastIdx (E.map Card.ID) c2.ID).isNone) := by
            have hd := upsert_fold_drop (E.map Card.ID) I E
              (le_of_eq (List.length_map E Card.ID))
            rw [List.length_map, List.drop_length, List.nil_append] at hd
            exact hd
          rw [hdropeq] at hdrop
          exact nodup_map_id_inj hnd (List.mem_filter.1 hdrop).1 hc hgid
      refine ⟨j, rfl, hjlen2, ?_⟩
      rw [heq]
      exact absorbed_self c

/-- Folding absorbed incoming cards over an accumulator pointwise
equivalent to the base collection keeps it pointwise equivalent (and never
appends). -/
theorem upsert_fold_equiv (eids : List String) (Ebase : List Card)
    (hlen0 : eids.length = Ebase.length) (inc : List Card) :
    ∀ acc : List Card,
      (∀ c ∈ inc, ∃ j, findLastIdx eids c.ID = some j ∧
        Absorbed c (Ebase.getD j default)) →
      acc.length = Ebase.length →
      (∀ (i : Nat) (d : Card), i < Ebase.length →
        CardSetEq (acc.getD i d) (Ebase.getD i d)) →
      ((inc.foldl (upsertStep eids) acc).length = Ebase.length ∧
       (∀ (i : Nat) (d : Card), i < Ebase.length →
         CardSetEq ((inc.foldl (upsertStep eids) acc).getD i d) (Ebase.getD i d))) := by
  induction inc with
  | nil => intro acc _ hl hinv; exact ⟨hl, hinv⟩
  | cons c t ih =>
    intro acc habs hl hinv
    rw [List.foldl_cons]
    obtain ⟨j, hf, habsj⟩ := habs c (List.mem_cons_self c t)
    obtain ⟨hjlen, _⟩ := findLastIdx_some_spec _ _ _ hf
    have hjB : j < Ebase.length := hlen0 ▸ hjlen
    have hjacc : j < acc.length := by rw [hl]; exact hjB
    have hstep : upsertStep eids acc c = modifyIdx (fun e => mergeInto e c) j acc := by
      unfold upsertStep; rw [hf]
    have hlstep : (upsertStep eids acc c).length = Ebase.length := by
      rw [hstep, modifyIdx_length]; exact hl
    refine ih _ (fun c2 hc2 => habs c2 (List.mem_cons_of_mem c hc2)) hlstep ?_
    intro i d hi
    by_cases hij : i = j
    · subst hij
      rw [hstep, modifyIdx_getD_eq _ _ _ _ hjacc]
      have habs2 : Absorbed c (Ebase.getD i d) := by
        have := habsj
        rwa [getD_default_irrel Ebase i default d hi] at this
      have hacceq : CardSetEq (acc.getD i d) (Ebase.getD i d) := hinv i d hi
      exact cardSetEq_trans (mergeInto_absorbed (absorbed_of_eq hacceq habs2))
        (hinv i d hi)
    · rw [hstep, modifyIdx_getD_ne _ _ _ _ _ hij]
      exact hinv i d hi

/-- C7 (counterexample): merge is not idempotent as claimed when two
incoming cards share an id: both are appended by the first merge, and the
second merge fills the later copy's blank prompt from the earlier one. -/
theorem merge_not_idempotent_dup_ids :
    cardsEqB (UpsertCards (UpsertCards [] [dupIncA, dupIncB]) [dupIncA, dupIncB])
      (UpsertCards [] [dupIncA, dupIncB]) = false := by decide

/-- C7 (amended): for incoming card sequences with pairwise-distinct ids
(as card generation produces), merge is idempotent:
`merge(merge(E, I), I)` equals `merge(E, I)` card by card, comparing ids
and field content with tags as an order-insensitive set. -/
theorem merge_idempotent (E I : List Card) (hnd : (I.map Card.ID).Nodup) :
    cardsEqB (UpsertCards (UpsertCards E I) I) (UpsertCards E I) = true := by
  have hlen0 : ((UpsertCards E I).map Card.ID).length = (UpsertCards E I).length :=
    List.length_map _ _
  have habs : ∀ c ∈ I, ∃ j,
      findLastIdx ((UpsertCards E I).map Card.ID) c.ID = some j ∧
      Absorbed c ((UpsertCards E I).getD j default) := by
    intro c hc
    obtain ⟨j, h1, _, h3⟩ := absorbed_after_merge E I hnd c hc
    exact ⟨j, h1, h3⟩
  obtain ⟨hlen, hpt⟩ := upsert_fold_equiv ((UpsertCards E I).map Card.ID)
    (UpsertCards E I) hlen0 I (UpsertCards E I) habs rfl
    (fun i d _ => cardSetEq_refl _)
  exact cardsEqB_of_pointwise _ _ hlen (fun i hi => hpt i default (by rw [← hlen]; exact hi))

/-- C7 (witness): idempotence at one existing card and two distinct-id
incoming cards. -/
theorem merge_idempotent_witness :
    cardsEqB (UpsertCards (UpsertCards [wExist] [wIncMatch, wInc]) [wIncMatch, wInc])
      (UpsertCards [wExist] [wIncMatch, wInc]) = true :=
  merge_idempotent [wExist] [wIncMatch, wInc] (by decide)

/-- A `--`-prefixed string is `-`-prefixed. -/
theorem startsWith_dash_of_ddash (s : String) (h : strStartsWith s "--" = true) :
    strStartsWith s "-" = true := by
  unfold strStartsWith at h ⊢
  cases hd : s.data with
  | nil => rw [hd] at h; simp [List.isPrefixOf] at h
  | cons c t =>
    rw [hd] at h
    rw [show ("--".data : List Char) = ['-', '-'] from rfl] at h
    rw [show ("-".data : List Char) = ['-'] from rfl]
    simp [List.isPrefixOf] at h ⊢
    exact h.1

/-- When the first token is not `-`-prefixed, every cloze candidate index
is at least 1: the sub-command pass starts at 1 by construction, and the
two flag passes can only pick index 0 when the first token is a flag. -/
theorem clozeCandidates_ge_one (words : List String)
    (h0 : strStartsWith (words.getD 0 "") "-" = false) :
    ∀ i ∈ clozeCandidates words, 1 ≤ i := by
  intro i hi
  unfold clozeCandidates at hi
  rcases List.mem_append.1 hi with hi2 | hi3
  · rcases List.mem_append.1 hi2 with hia | hib
    · have := (List.mem_filter.1 hia).2
      simp only [Bool.and_eq_true, decide_eq_true_eq] at this
      exact this.1
    · have hp := (List.mem_filter.1 hib).2
      cases i with
      | zero =>
        exact absurd (startsWith_dash_of_ddash _ hp) (by rw [h0]; simp)
      | succ i2 => omega
  · have hp := (List.mem_filter.1 hi3).2
    simp only [Bool.and_eq_true] at hp
    cases i with
    | zero => exact absurd hp.1 (by rw [h0]; simp)
    | succ i2 => omega

/-- C10 (counterexample): on the canonical text `tool --foo/bar baz` the
only flag candidate `--foo/bar` is a bad answer token, the fallback is
skipped because the candidate list is non-empty, and `cloze` hides index 0
(the command name `tool`) even though the eligible token `baz` sits at
index 2. -/
theorem cloze_hides_command_name :
    (cloze "tool --foo/bar baz").2.1 = "tool" ∧
    fields "tool --foo/bar baz" = ["tool", "--foo/bar", "baz"] ∧
    isBadAnswerToken "baz" = false ∧
    clozeIdx (fields "tool --foo/bar baz") = 0 := by decide

/-- C10 (amended): for a text of at least two tokens whose first token is
not itself `-`-prefixed, `cloze` never hides index 0 when an eligible
candidate exists: either some sub-command/flag candidate whose token is not
a bad answer token, or — when no sub-command/flag candidate exists at all —
some index `i ≥ 1` whose token is not a bad answer token.  (When the first
token is a flag, or when flag candidates exist but are all bad answer
tokens, the source can hide index 0.) -/
theorem cloze_not_head (cmd : String)
    (h2 : 2 ≤ (fields cmd).length)
    (h0 : strStartsWith ((fields cmd).getD 0 "") "-" = false)
    (helig : (∃ i ∈ clozeCandidates (fields cmd),
                isBadAnswerToken ((fields cmd).getD i "") = false) ∨
             (clozeCandidates (fields cmd) = [] ∧
              ∃ i, 1 ≤ i ∧ i < (fields cmd).length ∧
                isBadAnswerToken ((fields cmd).getD i "") = false)) :
    clozeIdx (fields cmd) ≠ 0 ∧
    (cloze cmd).2.1 = (fields cmd).getD (clozeIdx (fields cmd)) "" := by
  constructor
  · unfold clozeIdx
    rcases helig with ⟨i0, hi0mem, hi0good⟩ | ⟨hempty, i0, hi01, hi0len, hi0good⟩
    · have hne : clozeCandidates (fields cmd) ≠ [] := List.ne_nil_of_mem hi0mem
      rw [if_neg (by simpa [List.isEmpty_iff] using hne)]
      have hsome : ((clozeCandidates (fields cmd)).find?
          (fun i => !isBadAnswerToken ((fields cmd).getD i ""))).isSome := by
        rw [List.find?_isSome]
        exact ⟨i0, hi0mem, by rw [hi0good]; rfl⟩
      cases hfind : (clozeCandidates (fields cmd)).find?
          (fun i => !isBadAnswerToken ((fields cmd).getD i "")) with
      | none => rw [hfind] at hsome; simp at hsome
      | some i1 =>
        have hge := clozeCandidates_ge_one (fields cmd) h0 i1
          (List.mem_of_find?_eq_some hfind)
        show i1 ≠ 0
        omega
    · rw [if_pos (by simp [hempty])]
      unfold clozeFallback
      have hsome : ((List.range (fields cmd).length).find?
          (fun i => decide (1 ≤ i) && !isBadAnswerToken ((fields cmd).getD i ""))).isSome := by
        rw [List.find?_isSome]
        refine ⟨i0, List.mem_range.2 hi0len, ?_⟩
        rw [Bool.and_eq_true, hi0good]
        exact ⟨by simpa using hi01, rfl⟩
      cases hfind : (List.range (fields cmd).length).find?
          (fun i => decide (1 ≤ i) && !isBadAnswerToken ((fields cmd).getD i "")) with
      | none => rw [hfind] at hsome; simp at hsome
      | some i1 =>
        have hq := List.find?_some hfind
        simp only [Bool.and_eq_true, decide_eq_true_eq] at hq
        have hff : List.find? (fun i => !isBadAnswerToken ((fields cmd).getD i "")) [i1] =
            some i1 :=
          @List.find?_cons_of_pos Nat
            (fun i => !isBadAnswerToken ((fields cmd).getD i "")) i1 [] hq.2
        show (match List.find? (fun i => !isBadAnswerToken ((fields cmd).getD i "")) [i1] with
              | some i => i
              | none => 0) ≠ 0
        rw [hff]
        show i1 ≠ 0
        omega
  · cases hw : fields cmd with
    | nil => rw [hw] at h2; simp at h2
    | cons w ws =>
      show (cloze cmd).2.1 = _
      unfold cloze
      rw [hw]
      simp only [List.isEmpty_cons, if_false, Bool.false_eq_true]

/-- C10 (witness): on `git rebase -i x` the preferred sub-command `rebase`
is an eligible candidate, so index 0 is not hidden and the answer is the
token at the chosen index. -/
theorem cloze_not_head_witness :
    clozeIdx (fields "git rebase -i x") ≠ 0 ∧
    (cloze "git rebase -i x").2.1 =
      (fields "git rebase -i x").getD (clozeIdx (fields "git rebase -i x")) "" :=
  cloze_not_head "git rebase -i x" (by decide) (by decide) (Or.inl (by decide))

end Memonto
